import Mathlib

/-!
# Verification of `processAnalytics` (src/index.js, lines 716-896)

A shallow embedding of the attendance-analytics aggregator of the
`grouptraining-analytics` repository.  The JavaScript function
`processAnalytics` reduces a list of workout-session records into a report
(summary, byType, byDay, byHour, byInstructor, dailyTrend).

Modelling conventions:
* JS numbers are modelled as `ℚ` where division occurs and as `ℕ` for the
  integer counters (inputs are non-negative integers per the data model).
* Absent JS fields are `Option.none`; JS truthiness (`x || d`) is modelled
  explicitly (`0` and `""` are falsy).
* A thrown exception is `Option.none` at the result type: the code throws
  at `w.startTime.split` when `startTime` is absent, and at
  `byDayOfWeek[NaN].push` when `new Date(w.startTime)` is invalid.
* `new Date(s)` / `getDay` / `getHours` are modelled for the upstream
  format `YYYY-MM-DD HH:MM:SS` (parsed by V8 as local time); other string
  shapes JS may accept are treated as invalid dates, which is the scope
  the claims exercise.
* `Number.prototype.toFixed(1)` is modelled on exact rationals
  (round half up to tenths); JS numbers produced by division are
  modelled as canonical fractions (`JsNum`), so that equality of model
  values coincides with equality of the JS numbers;
  `Array.prototype.sort` (stable in JS) is modelled by a stable
  insertion sort.
* JS `Object` dictionaries are insertion-ordered association lists
  (string keys here are type names, instructor names, dates — not
  integer-like); JS `Set` is an insertion-ordered duplicate-free list.
-/

namespace GTA

/-! ## Input data model (raw Zoezi session objects) -/

structure WorkoutType where
  name : Option String
  color : Option String
deriving Repr, DecidableEq

structure Staff where
  firstname : Option String
  lastname : Option String
  imagekey : Option String
deriving Repr, DecidableEq

structure BUser where
  id : Option Nat
deriving Repr, DecidableEq

structure Booking where
  user_id : Option Nat
  userId : Option Nat
  user : Option BUser
deriving Repr, DecidableEq

structure Workout where
  workoutType : Option WorkoutType
  space : Option Nat
  numBooked : Option Nat
  startTime : Option String
  staffs : Option (List Staff)
  bookings : Option (List Booking)
deriving Repr, DecidableEq

/-! ## JS semantics helpers -/

/-- JS `x || d` for an optional string (empty string is falsy). -/
def jsOrStr (a : Option String) (d : String) : String :=
  match a with
  | some s => if s = "" then d else s
  | none => d

/-- JS truthiness of an optional number (`undefined` and `0` are falsy). -/
def jsTruthyNat : Option Nat → Bool
  | some n => decide (n ≠ 0)
  | none => false

/-- JS `a || b` for optional numbers. -/
def jsOrNat (a b : Option Nat) : Option Nat :=
  if jsTruthyNat a then a else b

/-- `booking.user_id || booking.userId || booking.user?.id` (line 770). -/
def userIdOf (b : Booking) : Option Nat :=
  jsOrNat b.user_id (jsOrNat b.userId (b.user.bind BUser.id))

/-- The id actually added by `if (userId) { ... add(userId) }` (line 771):
the chained value when it is truthy, nothing otherwise. -/
def truthyId : Option Nat → Option Nat
  | some n => if n = 0 then none else some n
  | none => none

/-! ## Executable string and fraction helpers

The JS primitives the aggregator uses (`String.prototype.split`,
`trim`, number parsing, exact non-negative fractions) are implemented
here by structural recursion so that every concrete run of the model
can be checked by `decide`. -/

def splitOnCharAux (c : Char) : List Char → List Char → List (List Char)
  | [], cur => [cur.reverse]
  | x :: xs, cur =>
    if x = c then cur.reverse :: splitOnCharAux c xs []
    else splitOnCharAux c xs (x :: cur)

/-- JS `s.split(c)` for a one-character separator. -/
def splitOnChar (c : Char) (s : String) : List String :=
  (splitOnCharAux c s.data []).map String.mk

/-- Parse a non-empty all-digit string as a natural number. -/
def strToNat? (s : String) : Option Nat :=
  if s.data ≠ [] ∧ s.data.all Char.isDigit then
    some (s.data.foldl (fun n c => n * 10 + (c.toNat - 48)) 0)
  else none

/-- JS `s.trim()` (the only whitespace this program produces is `' '`). -/
def trimSpaces (s : String) : String :=
  String.mk (((s.data.dropWhile (· = ' ')).reverse.dropWhile (· = ' ')).reverse)

/-- Strict lexicographic comparison of code points (JS default sort
order for the ASCII strings this program sorts). -/
def strLtChars : List Char → List Char → Bool
  | [], [] => false
  | [], _ :: _ => true
  | _ :: _, [] => false
  | a :: as, b :: bs =>
    if a.toNat < b.toNat then true
    else if b.toNat < a.toNat then false
    else strLtChars as bs

def strLtJS (a b : String) : Bool := strLtChars a.data b.data

/-- `a` may stay in front of `b` under the JS default comparator. -/
def strLeJS (a b : String) : Bool := ! strLtChars b.data a.data

/-- Fuel-driven Euclidean algorithm (kernel-computable). -/
def gcdF : Nat → Nat → Nat → Nat
  | 0, a, _ => a
  | _ + 1, 0, b => b
  | f + 1, a + 1, b => gcdF f (b % (a + 1)) (a + 1)

def natGcd (a b : Nat) : Nat := gcdF (a + 1) a b

/-- A non-negative JS number kept as a canonical fraction `n / d`
(lowest terms, `d > 0` for every value the program builds), so that
structural equality coincides with JS number equality. -/
structure JsNum where
  n : Nat
  d : Nat
deriving Repr, DecidableEq

/-- The JS number `0`. -/
def jsNumZero : JsNum := ⟨0, 1⟩

/-- The canonical form of `p / q` (`q > 0` at every use site). -/
def mkJsNum (p q : Nat) : JsNum :=
  if q = 0 then ⟨p, 0⟩
  else ⟨p / natGcd p q, q / natGcd p q⟩

/-- Exact JS addition of two non-negative numbers. -/
def addJsNum (a b : JsNum) : JsNum :=
  mkJsNum (a.n * b.d + b.n * a.d) (a.d * b.d)

/-- `l.reduce((a, b) => a + b, 0)`. -/
def sumJsNum (l : List JsNum) : JsNum := l.foldl addJsNum jsNumZero

/-! ## Field extraction (lines 735-741) -/

def typeNameOf (w : Workout) : String :=
  jsOrStr (w.workoutType.bind WorkoutType.name) "Unknown"

def typeColorOf (w : Workout) : String :=
  jsOrStr (w.workoutType.bind WorkoutType.color) "#667eea"

def spaceOf (w : Workout) : Nat := w.space.getD 0

def bookedOf (w : Workout) : Nat := w.numBooked.getD 0

/-- `staff.firstname || ''` + space + `staff.lastname || ''`, trimmed,
falling back to `'Unknown'` (line 796). -/
def staffNameOf (s : Staff) : String :=
  let t := trimSpaces (jsOrStr s.firstname "" ++ " " ++ jsOrStr s.lastname "")
  if t = "" then "Unknown" else t

/-! ## Date handling: `new Date(s).getDay()/.getHours()` for the
upstream `YYYY-MM-DD HH:MM:SS` format. -/

/-- Sakamoto's day-of-week table. -/
def sakamotoTable : List Nat := [0, 3, 2, 5, 0, 3, 5, 1, 4, 6, 2, 4]

/-- Day of week of a Gregorian date, `0 = Sunday .. 6 = Saturday`,
matching JS `Date.prototype.getDay`. -/
def dayOfWeek (y m d : Nat) : Nat :=
  let yy := if m < 3 then y - 1 else y
  (yy + yy / 4 - yy / 100 + yy / 400 + sakamotoTable.getD (m - 1) 0 + d) % 7

def parseDatePart (s : String) : Option (Nat × Nat × Nat) :=
  match splitOnChar '-' s with
  | [ys, ms, ds] =>
    match strToNat? ys, strToNat? ms, strToNat? ds with
    | some y, some m, some d =>
      if 1 ≤ m ∧ m ≤ 12 ∧ 1 ≤ d ∧ d ≤ 31 then some (y, m, d) else none
    | _, _, _ => none
  | _ => none

def parseTimePart (s : String) : Option Nat :=
  match splitOnChar ':' s with
  | [hs, ms, ss] =>
    match strToNat? hs, strToNat? ms, strToNat? ss with
    | some h, some mi, some se =>
      if h ≤ 23 ∧ mi ≤ 59 ∧ se ≤ 59 then some h else none
    | _, _, _ => none
  | _ => none

/-- `new Date(s)` for `YYYY-MM-DD HH:MM:SS`: `some (getDay, getHours)`
on a valid date, `none` for an invalid date. -/
def parseStartTime (s : String) : Option (Nat × Nat) :=
  match splitOnChar ' ' s with
  | [dp, tp] =>
    match parseDatePart dp, parseTimePart tp with
    | some (y, m, d), some h => some (dayOfWeek y m d, h)
    | _, _ => none
  | _ => none

/-! ## Number formatting -/

/-- An output slot that JS fills with either the number `0` (zero
denominator branch) or a `toFixed(1)` string. -/
inductive JsNumStr where
  | num (v : JsNum)
  | str (s : String)
deriving Repr, DecidableEq

/-- `(p / q).toFixed(1)` for `q > 0`: round half up to tenths and print
with exactly one decimal digit
(`⌊10 p / q + 1 / 2⌋ = ⌊(20 p + q) / (2 q)⌋`). -/
def toFixed1Frac (p q : Nat) : String :=
  let t := (20 * p + q) / (2 * q)
  s!"{t / 10}.{t % 10}"

/-- `den > 0 ? (num / den * 100).toFixed(1) : 0` — the rate pattern. -/
def jsRatePct (num den : Nat) : JsNumStr :=
  if den > 0 then .str (toFixed1Frac (100 * num) den) else .num jsNumZero

/-- `den > 0 ? (num / den).toFixed(1) : 0` — the average pattern. -/
def jsAvgOf (num den : Nat) : JsNumStr :=
  if den > 0 then .str (toFixed1Frac num den) else .num jsNumZero

/-- `l.length > 0 ? (l.reduce((a,b)=>a+b,0) / l.length).toFixed(1) : 0`. -/
def jsMeanOf (l : List JsNum) : JsNumStr :=
  if l.length > 0 then
    .str (toFixed1Frac (sumJsNum l).n ((sumJsNum l).d * l.length))
  else .num jsNumZero

/-- `parseFloat` applied to a rate slot, expressed in tenths: the slots
this program sorts on are either the number `0` or a one-decimal string,
and scaling by ten preserves their order and their ties exactly. -/
def rateKey : JsNumStr → Nat
  | .num v => v.n * 10 / v.d
  | .str s =>
    match splitOnChar '.' s with
    | [a, b] => (strToNat? a).getD 0 * 10 + (strToNat? b).getD 0
    | _ => 0

/-! ## Insertion-ordered dictionaries (JS objects) and sets (JS Set) -/

def dget {K V : Type} [DecidableEq K] (m : List (K × V)) (k : K) : Option V :=
  (m.find? (fun p => decide (p.1 = k))).map Prod.snd

/-- `if (!m[k]) m[k] = v;` — append a fresh entry if the key is absent. -/
def densure {K V : Type} [DecidableEq K] (m : List (K × V)) (k : K) (v : V) :
    List (K × V) :=
  if (dget m k).isSome then m else m ++ [(k, v)]

/-- Mutate the value stored at key `k` in place. -/
def dmod {K V : Type} [DecidableEq K] (m : List (K × V)) (k : K) (f : V → V) :
    List (K × V) :=
  m.map (fun p => if p.1 = k then (p.1, f p.2) else p)

/-- The `if (!m[k]) m[k] = v0; <mutate m[k]>` pattern of the source. -/
def dstep {K V : Type} [DecidableEq K] (m : List (K × V)) (k : K) (v0 : V)
    (f : V → V) : List (K × V) :=
  dmod (densure m k v0) k f

/-- JS `Set.prototype.add` (insertion-ordered, duplicate-free). -/
def setAdd (s : List Nat) (x : Nat) : List Nat :=
  if x ∈ s then s else s ++ [x]

/-! ## Accumulator state of the single pass (lines 717-732) -/

structure TypeAcc where
  name : String
  color : String
  classes : Nat
  totalBooked : Nat
  totalCapacity : Nat
  bookings : List JsNum
deriving Repr, DecidableEq

structure CountAcc where
  classes : Nat
  totalBooked : Nat
  totalCapacity : Nat
deriving Repr, DecidableEq

structure InsAcc where
  name : String
  classes : Nat
  totalBooked : Nat
  totalCapacity : Nat
  imagekey : Option String
deriving Repr, DecidableEq

structure DayEntry where
  booked : Nat
  capacity : Nat
  rate : JsNum
deriving Repr, DecidableEq

structure Acc where
  byType : List (String × TypeAcc)
  byDayOfWeek : List (List DayEntry)
  byHour : List (Nat × CountAcc)
  byInstructor : List (String × InsAcc)
  byDate : List (String × CountAcc)
  totalClasses : Nat
  totalBooked : Nat
  totalCapacity : Nat
  fullyBookedClasses : Nat
  emptyClasses : Nat
  allUniqueUsers : List Nat
  uniqueUsersByType : List (String × List Nat)
deriving Repr, DecidableEq

def initAcc : Acc :=
  { byType := [], byDayOfWeek := [[], [], [], [], [], [], []], byHour := [],
    byInstructor := [], byDate := [], totalClasses := 0, totalBooked := 0,
    totalCapacity := 0, fullyBookedClasses := 0, emptyClasses := 0,
    allUniqueUsers := [], uniqueUsersByType := [] }

/-- `space > 0 ? (booked / space * 100) : 0` (lines 765, 782). -/
def sessionRatio (w : Workout) : JsNum :=
  if spaceOf w > 0 then mkJsNum (100 * bookedOf w) (spaceOf w) else jsNumZero

def typeInit (w : Workout) (tn : String) : TypeAcc :=
  { name := tn, color := typeColorOf w, classes := 0, totalBooked := 0,
    totalCapacity := 0, bookings := [] }

def insInit (n : String) (s : Staff) : InsAcc :=
  { name := n, classes := 0, totalBooked := 0, totalCapacity := 0,
    imagekey := s.imagekey }

def insInc (booked space : Nat) (v : InsAcc) : InsAcc :=
  { v with
    classes := v.classes + 1,
    totalBooked := v.totalBooked + booked,
    totalCapacity := v.totalCapacity + space }

/-- Lines 794-810: fan the session out to every staff member's bucket;
skipped entirely when `staffs` is absent or empty. -/
def updateByInstructor (w : Workout) (m : List (String × InsAcc)) :
    List (String × InsAcc) :=
  match w.staffs with
  | none => m
  | some ss =>
    if ss.length > 0 then
      ss.foldl (fun m s =>
        dstep m (staffNameOf s) (insInit (staffNameOf s) s)
          (insInc (bookedOf w) (spaceOf w))) m
    else m

/-- Lines 768-776: collect truthy user ids into the global set and the
per-type set. -/
def updateUsers (tn : String) (w : Workout)
    (st : List Nat × List (String × List Nat)) :
    List Nat × List (String × List Nat) :=
  match w.bookings with
  | none => st
  | some bs =>
    bs.foldl (fun p b =>
      match truthyId (userIdOf b) with
      | some uid => (setAdd p.1 uid, dmod p.2 tn (fun s => setAdd s uid))
      | none => p) st

/-- One iteration of the `workouts.forEach` body (lines 734-819), given the
already-derived day of week, hour and date string. -/
def stepCore (acc : Acc) (w : Workout) (dow hour : Nat) (dateStr : String) :
    Acc :=
  let typeName := typeNameOf w
  let space := spaceOf w
  let booked := bookedOf w
  let byType2 := dstep acc.byType typeName (typeInit w typeName) (fun t =>
    { t with
      classes := t.classes + 1,
      totalBooked := t.totalBooked + booked,
      totalCapacity := t.totalCapacity + space,
      bookings := t.bookings ++ [sessionRatio w] })
  let uubt0 :=
    if (dget acc.byType typeName).isSome then acc.uniqueUsersByType
    else acc.uniqueUsersByType ++ [(typeName, [])]
  let users := updateUsers typeName w (acc.allUniqueUsers, uubt0)
  { byType := byType2
    byDayOfWeek := acc.byDayOfWeek.set dow
      (acc.byDayOfWeek.getD dow [] ++
        [{ booked := booked, capacity := space, rate := sessionRatio w }])
    byHour := dstep acc.byHour hour ⟨0, 0, 0⟩ (fun h =>
      ⟨h.classes + 1, h.totalBooked + booked, h.totalCapacity + space⟩)
    byInstructor := updateByInstructor w acc.byInstructor
    byDate := dstep acc.byDate dateStr ⟨0, 0, 0⟩ (fun h =>
      ⟨h.classes + 1, h.totalBooked + booked, h.totalCapacity + space⟩)
    totalClasses := acc.totalClasses + 1
    totalBooked := acc.totalBooked + booked
    totalCapacity := acc.totalCapacity + space
    fullyBookedClasses :=
      acc.fullyBookedClasses + (if space > 0 ∧ booked ≥ space then 1 else 0)
    emptyClasses := acc.emptyClasses + (if booked = 0 then 1 else 0)
    allUniqueUsers := users.1
    uniqueUsersByType := users.2 }

/-- `w.startTime.split(' ')[0]` (line 741). -/
def dateStrOfString (st : String) : String := (splitOnChar ' ' st).headD ""

/-- One iteration of the loop body including its two throwing paths:
`w.startTime.split` throws when `startTime` is absent (line 741), and
`byDayOfWeek[NaN].push` throws when the date is invalid (line 779). -/
def stepWorkout (acc : Acc) (w : Workout) : Option Acc :=
  match w.startTime with
  | none => none
  | some st =>
    match parseStartTime st with
    | none => none
    | some dh => some (stepCore acc w dh.1 dh.2 (dateStrOfString st))

def runFold : Acc → List Workout → Option Acc
  | acc, [] => some acc
  | acc, w :: ws =>
    match stepWorkout acc w with
    | some acc2 => runFold acc2 ws
    | none => none

/-! ## Output shape and finalisation (lines 822-895) -/

structure TypeStat where
  name : String
  color : String
  classes : Nat
  totalBooked : Nat
  totalCapacity : Nat
  bookings : List JsNum
  avgAttendance : JsNumStr
  attendanceRate : JsNumStr
  avgBookingRate : JsNumStr
  uniqueParticipants : Nat
deriving Repr, DecidableEq

structure DayStat where
  day : String
  dayIndex : Nat
  classes : Nat
  avgAttendance : JsNumStr
  attendanceRate : JsNumStr
deriving Repr, DecidableEq

structure HourStat where
  hour : Nat
  label : String
  classes : Nat
  avgAttendance : JsNumStr
  attendanceRate : JsNumStr
deriving Repr, DecidableEq

structure InsStat where
  name : String
  classes : Nat
  totalBooked : Nat
  totalCapacity : Nat
  imagekey : Option String
  avgAttendance : JsNumStr
  attendanceRate : JsNumStr
deriving Repr, DecidableEq

structure TrendStat where
  date : String
  classes : Nat
  totalBooked : Nat
  totalCapacity : Nat
  attendanceRate : JsNumStr
deriving Repr, DecidableEq

structure Summary where
  totalClasses : Nat
  totalBooked : Nat
  totalCapacity : Nat
  overallAttendanceRate : JsNumStr
  avgPerClass : JsNumStr
  fullyBookedClasses : Nat
  fullyBookedRate : JsNumStr
  emptyClasses : Nat
  emptyRate : JsNumStr
  uniqueParticipants : Nat
deriving Repr, DecidableEq

structure AnalyticsReport where
  summary : Summary
  byType : List TypeStat
  byDay : List DayStat
  byHour : List HourStat
  byInstructor : List InsStat
  dailyTrend : List TrendStat
deriving Repr, DecidableEq

/-- Stable insertion into a sorted list: `le y x` means `y` may stay in
front of `x` (so equal elements keep encounter order, as JS sort does). -/
def sInsert {α : Type} (le : α → α → Bool) (x : α) : List α → List α
  | [] => [x]
  | y :: ys => if le y x then y :: sInsert le x ys else x :: y :: ys

/-- Stable sort (model of JS `Array.prototype.sort`, stable per ES2019). -/
def stableSort {α : Type} (le : α → α → Bool) (l : List α) : List α :=
  l.foldl (fun acc x => sInsert le x acc) []

/-- `(a, b) => parseFloat(b.attendanceRate) - parseFloat(a.attendanceRate)`
as a precedence test: `a` may precede `b` iff `b`'s key ≤ `a`'s key. -/
def rateLeT (a b : TypeStat) : Bool :=
  decide (rateKey b.attendanceRate ≤ rateKey a.attendanceRate)

def rateLeI (a b : InsStat) : Bool :=
  decide (rateKey b.attendanceRate ≤ rateKey a.attendanceRate)

def mkTypeStat (uubt : List (String × List Nat)) (t : TypeAcc) : TypeStat :=
  { name := t.name, color := t.color, classes := t.classes
    totalBooked := t.totalBooked, totalCapacity := t.totalCapacity
    bookings := t.bookings
    avgAttendance := jsAvgOf t.totalBooked t.classes
    attendanceRate := jsRatePct t.totalBooked t.totalCapacity
    avgBookingRate := jsMeanOf t.bookings
    uniqueParticipants := ((dget uubt t.name).map List.length).getD 0 }

def dayNames : List String :=
  ["Sunday", "Monday", "Tuesday", "Wednesday", "Thursday", "Friday",
   "Saturday"]

def mkDayStat (byDOW : List (List DayEntry)) (p : Nat × String) : DayStat :=
  let data := byDOW.getD p.1 []
  let totalBooked := data.foldl (fun s d => s + d.booked) 0
  let totalCapacity := data.foldl (fun s d => s + d.capacity) 0
  { day := p.2, dayIndex := p.1, classes := data.length
    avgAttendance := jsAvgOf totalBooked data.length
    attendanceRate := jsRatePct totalBooked totalCapacity }

def mkHourStat (byHour : List (Nat × CountAcc)) (h : Nat) : HourStat :=
  let data := (dget byHour h).getD ⟨0, 0, 0⟩
  { hour := h, label := s!"{h}:00", classes := data.classes
    avgAttendance := jsAvgOf data.totalBooked data.classes
    attendanceRate := jsRatePct data.totalBooked data.totalCapacity }

def mkInsStat (v : InsAcc) : InsStat :=
  { name := v.name, classes := v.classes, totalBooked := v.totalBooked
    totalCapacity := v.totalCapacity, imagekey := v.imagekey
    avgAttendance := jsAvgOf v.totalBooked v.classes
    attendanceRate := jsRatePct v.totalBooked v.totalCapacity }

def mkTrendStat (byDate : List (String × CountAcc)) (d : String) : TrendStat :=
  let data := (dget byDate d).getD ⟨0, 0, 0⟩
  { date := d, classes := data.classes, totalBooked := data.totalBooked
    totalCapacity := data.totalCapacity
    attendanceRate := jsRatePct data.totalBooked data.totalCapacity }

def finalize (acc : Acc) : AnalyticsReport :=
  { summary :=
    { totalClasses := acc.totalClasses, totalBooked := acc.totalBooked
      totalCapacity := acc.totalCapacity
      overallAttendanceRate := jsRatePct acc.totalBooked acc.totalCapacity
      avgPerClass := jsAvgOf acc.totalBooked acc.totalClasses
      fullyBookedClasses := acc.fullyBookedClasses
      fullyBookedRate := jsRatePct acc.fullyBookedClasses acc.totalClasses
      emptyClasses := acc.emptyClasses
      emptyRate := jsRatePct acc.emptyClasses acc.totalClasses
      uniqueParticipants := acc.allUniqueUsers.length }
    byType := stableSort rateLeT
      ((acc.byType.map Prod.snd).map (mkTypeStat acc.uniqueUsersByType))
    byDay := dayNames.enum.map (mkDayStat acc.byDayOfWeek)
    byHour := (List.range' 5 18).map (mkHourStat acc.byHour)
    byInstructor := stableSort rateLeI
      ((acc.byInstructor.map Prod.snd).map mkInsStat)
    dailyTrend := (stableSort strLeJS
      (acc.byDate.map Prod.fst)).map (mkTrendStat acc.byDate) }

/-- The aggregator (lines 716-896).  `none` models a thrown exception. -/
def processAnalytics (workouts : List Workout) : Option AnalyticsReport :=
  (runFold initAcc workouts).map finalize

/-! ## Specification-side views of a session

These are *not* part of the embedded program: they recompute, per
session, the quantities the loop accumulates, so that theorems can state
what the accumulators contain. -/

/-- A session parses: `startTime` is present and is a valid date. -/
def validW (w : Workout) : Bool :=
  match w.startTime with
  | some st => (parseStartTime st).isSome
  | none => false

/-- The `(getDay, getHours)` pair the loop derives (junk `(0,0)` for a
session on which the loop would throw). -/
def dhOf (w : Workout) : Nat × Nat :=
  match w.startTime with
  | some st => (parseStartTime st).getD (0, 0)
  | none => (0, 0)

def dowOf (w : Workout) : Nat := (dhOf w).1

def hourOf (w : Workout) : Nat := (dhOf w).2

def dateStrOf (w : Workout) : String :=
  match w.startTime with
  | some st => dateStrOfString st
  | none => ""

/-- The loop body with the derived values plugged in. -/
def stepV (acc : Acc) (w : Workout) : Acc :=
  stepCore acc w (dowOf w) (hourOf w) (dateStrOf w)

/-- The pure left fold of the loop body over the input. -/
def accOf (l : List Workout) : Acc := l.foldl stepV initAcc

/-- The truthy user ids a single session contributes. -/
def sessionUserIds (w : Workout) : List Nat :=
  (w.bookings.getD []).filterMap (fun b => truthyId (userIdOf b))

/-- The staff display names of a single session. -/
def staffNamesOf (w : Workout) : List String :=
  (w.staffs.getD []).map staffNameOf

/-- Count/booked/capacity aggregate of the sessions selected by `p`. -/
def countAggOf (l : List Workout) (p : Workout → Bool) : CountAcc :=
  { classes := (l.filter p).length
    totalBooked := ((l.filter p).map bookedOf).sum
    totalCapacity := ((l.filter p).map spaceOf).sum }

/-- The record pushed onto a weekday bucket (lines 779-783). -/
def dayEntryOf (w : Workout) : DayEntry :=
  { booked := bookedOf w, capacity := spaceOf w, rate := sessionRatio w }

/-- The numeric core of an instructor bucket (everything except the
`imagekey`, which records only the first-creating staff object). -/
structure InsCore where
  name : String
  classes : Nat
  totalBooked : Nat
  totalCapacity : Nat
deriving Repr, DecidableEq

def insProj (v : InsAcc) : InsCore :=
  ⟨v.name, v.classes, v.totalBooked, v.totalCapacity⟩

/-- Apply the per-occurrence increment `k` times. -/
def insCoreInc (k b c : Nat) (v : InsCore) : InsCore :=
  ⟨v.name, v.classes + k, v.totalBooked + k * b, v.totalCapacity + k * c⟩

/-- The instructor bucket for display name `n`: a session contributes
once per staff member with that name (`count`), carrying its full
booked count and capacity each time. -/
def insCoreOf (l : List Workout) (n : String) : InsCore :=
  ⟨n, (l.map (fun w => (staffNamesOf w).count n)).sum,
     (l.map (fun w => (staffNamesOf w).count n * bookedOf w)).sum,
     (l.map (fun w => (staffNamesOf w).count n * spaceOf w)).sum⟩

/-- The per-type unique-user set accumulated for the type key `k`:
insertion-ordered fold of all truthy ids of that type's sessions. -/
def userSetOf (l : List Workout) (k : String) : List Nat :=
  (((l.filter (fun w => decide (typeNameOf w = k))).map
    sessionUserIds).flatten).foldl setAdd []

/-- `byType` entry with the order-dependent-but-numeric `bookings`
array read as a multiset and the non-numeric first-occurrence `color`
dropped. -/
structure TypeStatCanon where
  name : String
  classes : Nat
  totalBooked : Nat
  totalCapacity : Nat
  bookings : Multiset JsNum
  avgAttendance : JsNumStr
  attendanceRate : JsNumStr
  avgBookingRate : JsNumStr
  uniqueParticipants : Nat
deriving DecidableEq

def canonTypeStat (t : TypeStat) : TypeStatCanon :=
  { name := t.name, classes := t.classes, totalBooked := t.totalBooked
    totalCapacity := t.totalCapacity
    bookings := (t.bookings : Multiset JsNum)
    avgAttendance := t.avgAttendance, attendanceRate := t.attendanceRate
    avgBookingRate := t.avgBookingRate
    uniqueParticipants := t.uniqueParticipants }

/-- `byInstructor` entry with the non-numeric first-occurrence
`imagekey` dropped. -/
structure InsStatCanon where
  name : String
  classes : Nat
  totalBooked : Nat
  totalCapacity : Nat
  avgAttendance : JsNumStr
  attendanceRate : JsNumStr
deriving DecidableEq

def canonInsStat (i : InsStat) : InsStatCanon :=
  ⟨i.name, i.classes, i.totalBooked, i.totalCapacity, i.avgAttendance,
   i.attendanceRate⟩

/-- The rational value of a `JsNum` (proof-side only). -/
def jsNumVal (v : JsNum) : ℚ := (v.n : ℚ) / (v.d : ℚ)

/-- A well-formed `JsNum`: lowest terms with positive denominator.
Every value the program builds satisfies this. -/
def goodJsNum (v : JsNum) : Prop := Nat.Coprime v.n v.d ∧ 0 < v.d

/-- One staff member's update inside the instructor fan-out, with the
session's booked count and capacity abstracted. -/
def staffFoldStep (b c : Nat) (m : List (String × InsAcc)) (s : Staff) :
    List (String × InsAcc) :=
  dstep m (staffNameOf s) (insInit (staffNameOf s) s) (insInc b c)

/-- What the `byType` bucket of key `k` holds after the whole pass:
aggregates over the sessions of that type, the colour coming from the
first such session. -/
def typeAggOf (l : List Workout) (k : String) : TypeAcc :=
  { name := k
    color :=
      (((l.find? (fun w => decide (typeNameOf w = k))).map typeColorOf).getD
        "#667eea")
    classes := (l.filter (fun w => decide (typeNameOf w = k))).length
    totalBooked := ((l.filter (fun w => decide (typeNameOf w = k))).map bookedOf).sum
    totalCapacity := ((l.filter (fun w => decide (typeNameOf w = k))).map spaceOf).sum
    bookings := (l.filter (fun w => decide (typeNameOf w = k))).map sessionRatio }

/-- Junk default, only used to state `getD` at keys known to be present. -/
def typeAccDefault : TypeAcc := ⟨"", "", 0, 0, 0, []⟩

/-- Junk default, only used to state `getD` at keys known to be present. -/
def insAccDefault : InsAcc := ⟨"", 0, 0, 0, none⟩

/-! ## Concrete sessions used to evaluate the theorems -/

/-- A structurally valid session object with every field absent. -/
def emptyWorkout : Workout := ⟨none, none, none, none, none, none⟩

def mkW (ty : String) (cap booked : Nat) (st : String) : Workout :=
  ⟨some ⟨some ty, none⟩, some cap, some booked, some st, none, none⟩

/-- Scenario 2 of the spec: Yoga, capacity 12, booked 8, a Monday, 18:00. -/
def wYoga : Workout := mkW "Yoga" 12 8 "2024-01-15 18:00:00"

def wSpin1 : Workout := mkW "Spin" 10 10 "2024-01-15 18:00:00"

def wSpin2 : Workout := mkW "Spin" 5 0 "2024-01-16 07:00:00"

/-- Only `startTime` present; every other field absent. -/
def wOnlyStart : Workout := ⟨none, none, none, some "2024-01-15 18:00:00", none, none⟩

def staffAnna : Staff := ⟨some "Anna", some "Ali", none⟩

def staffBjorn : Staff := ⟨some "Bjorn", some "Berg", none⟩

def wTwoStaff : Workout :=
  { mkW "Yoga" 10 6 "2024-01-15 18:00:00" with staffs := some [staffAnna, staffBjorn] }

def wNoStaff : Workout := mkW "Yoga" 10 6 "2024-01-15 18:00:00"

def bookingU (n : Nat) : Booking := ⟨some n, none, none⟩

def wBookA : Workout :=
  { mkW "Yoga" 10 2 "2024-01-15 18:00:00" with
    bookings := some [bookingU 1, bookingU 2] }

def wBookB : Workout :=
  { mkW "Spin" 10 2 "2024-01-16 07:00:00" with
    bookings := some [bookingU 2, bookingU 3] }

/-! ## Dictionary lemmas -/

section DictLemmas

variable {K V : Type} [DecidableEq K]

theorem dget_cons (p : K × V) (m : List (K × V)) (k : K) :
    dget (p :: m) k = if p.1 = k then some p.2 else dget m k := by
  by_cases h : p.1 = k
  · simp [dget, List.find?_cons_of_pos, h]
  · simp only [dget, h, if_false]
    rw [List.find?_cons_of_neg]
    simp [h]

theorem dget_isSome_iff (m : List (K × V)) (k : K) :
    (dget m k).isSome = true ↔ k ∈ m.map Prod.fst := by
  induction m with
  | nil => simp [dget]
  | cons p m ih =>
    by_cases h : p.1 = k
    · simp [dget_cons, h]
    · simp only [dget_cons, h, if_false, List.map_cons, List.mem_cons]
      rw [ih]
      constructor
      · exact fun hm => Or.inr hm
      · rintro (he | hm)
        · exact absurd he.symm h
        · exact hm

theorem dget_append_single (m : List (K × V)) (k' : K) (v : V) (k : K) :
    dget (m ++ [(k', v)]) k =
      (dget m k).or (if k' = k then some v else none) := by
  induction m with
  | nil => simp [dget, dget_cons]
  | cons p m ih =>
    by_cases h : p.1 = k <;> simp [dget_cons, h, ih]

theorem dget_densure (m : List (K × V)) (k' : K) (v : V) (k : K) :
    dget (densure m k' v) k =
      if k = k' then some ((dget m k').getD v) else dget m k := by
  unfold densure
  by_cases hs : (dget m k').isSome
  · obtain ⟨w, hw⟩ := Option.isSome_iff_exists.mp hs
    by_cases h : k = k' <;> simp [hs, h, hw]
  · rw [Option.not_isSome_iff_eq_none] at hs
    by_cases h : k = k'
    · subst h
      simp [hs, dget_append_single]
    · have h2 : k' ≠ k := fun he => h he.symm
      simp [hs, dget_append_single, h, h2]

theorem dget_dmod (m : List (K × V)) (k' : K) (f : V → V) (k : K) :
    dget (dmod m k' f) k =
      if k = k' then (dget m k).map f else dget m k := by
  induction m with
  | nil => simp [dget, dmod]
  | cons p m ih =>
    simp only [dmod] at ih ⊢
    rw [List.map_cons, dget_cons]
    by_cases h1 : p.1 = k'
    · subst h1
      by_cases h2 : p.1 = k
      · subst h2
        simp [ih, dget_cons]
      · simp [h2, ih, dget_cons]
    · by_cases h2 : p.1 = k
      · subst h2
        simp [h1, ih, dget_cons]
      · simp [h1, h2, ih, dget_cons]

theorem dget_dstep (m : List (K × V)) (k' : K) (v : V) (f : V → V) (k : K) :
    dget (dstep m k' v f) k =
      if k = k' then some (f ((dget m k').getD v)) else dget m k := by
  unfold dstep
  rw [dget_dmod]
  by_cases h : k = k'
  · subst h
    simp [dget_densure]
  · simp [h, dget_densure]

theorem keys_dmod (m : List (K × V)) (k : K) (f : V → V) :
    (dmod m k f).map Prod.fst = m.map Prod.fst := by
  unfold dmod
  rw [List.map_map]
  apply List.map_congr_left
  intro p _
  by_cases h : p.1 = k <;> simp [h]

theorem keys_densure (m : List (K × V)) (k : K) (v : V) :
    (densure m k v).map Prod.fst =
      if k ∈ m.map Prod.fst then m.map Prod.fst
      else m.map Prod.fst ++ [k] := by
  unfold densure
  by_cases h : k ∈ m.map Prod.fst
  · simp [(dget_isSome_iff m k).mpr h, h]
  · have : ¬ (dget m k).isSome = true := fun hs => h ((dget_isSome_iff m k).mp hs)
    simp [this, h]

theorem keys_dstep (m : List (K × V)) (k : K) (v : V) (f : V → V) :
    (dstep m k v f).map Prod.fst =
      if k ∈ m.map Prod.fst then m.map Prod.fst
      else m.map Prod.fst ++ [k] := by
  unfold dstep
  rw [keys_dmod, keys_densure]

theorem nodup_keys_dstep (m : List (K × V)) (k : K) (v : V) (f : V → V)
    (h : (m.map Prod.fst).Nodup) : ((dstep m k v f).map Prod.fst).Nodup := by
  rw [keys_dstep]
  by_cases hk : k ∈ m.map Prod.fst
  · simpa [hk] using h
  · simp only [hk, if_false]
    rw [List.nodup_append]
    refine ⟨h, List.nodup_singleton k, ?_⟩
    intro a ha hb
    rw [List.mem_singleton] at hb
    exact hk (hb ▸ ha)

theorem values_eq_map_keys (m : List (K × V)) (d : V)
    (hm : (m.map Prod.fst).Nodup) :
    m.map Prod.snd = (m.map Prod.fst).map (fun k => (dget m k).getD d) := by
  induction m with
  | nil => rfl
  | cons p m ih =>
    simp only [List.map_cons, List.nodup_cons] at hm ⊢
    congr 1
    · simp [dget_cons]
    · rw [ih hm.2]
      apply List.map_congr_left
      intro k hk
      have : p.1 ≠ k := fun he => hm.1 (he ▸ hk)
      simp [dget_cons, this]

end DictLemmas

/-! ## The loop as a pure left fold -/

theorem stepWorkout_eq (acc : Acc) (w : Workout) :
    stepWorkout acc w = if validW w then some (stepV acc w) else none := by
  unfold stepWorkout validW stepV dowOf hourOf dhOf dateStrOf
  cases h : w.startTime with
  | none => simp
  | some st =>
    cases hp : parseStartTime st with
    | none => simp [hp]
    | some dh => simp [hp]

theorem runFold_eq (l : List Workout) (acc : Acc) :
    runFold acc l = if l.all validW then some (l.foldl stepV acc) else none := by
  induction l generalizing acc with
  | nil => rfl
  | cons w ws ih =>
    simp only [runFold, stepWorkout_eq, List.all_cons, List.foldl_cons]
    by_cases h : validW w <;> simp [h, ih]

theorem processAnalytics_eq (l : List Workout) :
    processAnalytics l =
      if l.all validW then some (finalize (accOf l)) else none := by
  unfold processAnalytics accOf
  rw [runFold_eq]
  by_cases h : l.all validW <;> simp [h]

theorem processAnalytics_some (l : List Workout) (out : AnalyticsReport)
    (h : processAnalytics l = some out) :
    l.all validW = true ∧ out = finalize (accOf l) := by
  rw [processAnalytics_eq] at h
  by_cases hv : l.all validW
  · simp only [hv, if_true, Option.some.injEq] at h
    exact ⟨hv, h.symm⟩
  · simp [hv] at h

/-! ## Characterisation of the accumulator: scalar counters -/

theorem accOf_append (l : List Workout) (w : Workout) :
    accOf (l ++ [w]) = stepV (accOf l) w := by
  unfold accOf
  rw [List.foldl_append]
  rfl

theorem accOf_totalClasses (l : List Workout) :
    (accOf l).totalClasses = l.length := by
  induction l using List.reverseRecOn with
  | nil => rfl
  | append_singleton l w ih =>
    rw [accOf_append]
    simp only [stepV, stepCore, List.length_append, List.length_singleton]
    omega

theorem accOf_totalBooked (l : List Workout) :
    (accOf l).totalBooked = (l.map bookedOf).sum := by
  induction l using List.reverseRecOn with
  | nil => rfl
  | append_singleton l w ih =>
    rw [accOf_append]
    simp only [stepV, stepCore, List.map_append, List.sum_append]
    simp [ih]

theorem accOf_totalCapacity (l : List Workout) :
    (accOf l).totalCapacity = (l.map spaceOf).sum := by
  induction l using List.reverseRecOn with
  | nil => rfl
  | append_singleton l w ih =>
    rw [accOf_append]
    simp only [stepV, stepCore, List.map_append, List.sum_append]
    simp [ih]

theorem accOf_fullyBooked (l : List Workout) :
    (accOf l).fullyBookedClasses =
      l.countP (fun w => decide (spaceOf w > 0 ∧ bookedOf w ≥ spaceOf w)) := by
  induction l using List.reverseRecOn with
  | nil => rfl
  | append_singleton l w ih =>
    rw [accOf_append]
    simp only [stepV, stepCore, List.countP_append]
    rw [ih]
    by_cases h : spaceOf w > 0 ∧ bookedOf w ≥ spaceOf w <;>
      simp [List.countP_cons, h]

theorem accOf_emptyClasses (l : List Workout) :
    (accOf l).emptyClasses = l.countP (fun w => decide (bookedOf w = 0)) := by
  induction l using List.reverseRecOn with
  | nil => rfl
  | append_singleton l w ih =>
    rw [accOf_append]
    simp only [stepV, stepCore, List.countP_append]
    rw [ih]
    by_cases h : bookedOf w = 0 <;> simp [List.countP_cons, h]

/-! ## Day-of-week and hour characterisation -/

theorem parseStartTime_fst_lt (st : String) (dh : Nat × Nat)
    (h : parseStartTime st = some dh) : dh.1 < 7 := by
  unfold parseStartTime at h
  split at h
  · split at h
    · cases h
      dsimp only
      simp only [dayOfWeek]
      omega
    · exact absurd h (by simp)
  · exact absurd h (by simp)

theorem dowOf_lt_seven (w : Workout) : dowOf w < 7 := by
  unfold dowOf dhOf
  cases hst : w.startTime with
  | none => simp
  | some st =>
    cases hp : parseStartTime st with
    | none => simp [hp]
    | some dh => simpa [hp] using parseStartTime_fst_lt st dh hp

theorem countAggOf_append (l : List Workout) (w : Workout) (p : Workout → Bool) :
    countAggOf (l ++ [w]) p =
      if p w then
        { classes := (countAggOf l p).classes + 1
          totalBooked := (countAggOf l p).totalBooked + bookedOf w
          totalCapacity := (countAggOf l p).totalCapacity + spaceOf w }
      else countAggOf l p := by
  unfold countAggOf
  by_cases h : p w <;> simp [List.filter_append, h]

theorem accOf_byDayOfWeek_length (l : List Workout) :
    (accOf l).byDayOfWeek.length = 7 := by
  induction l using List.reverseRecOn with
  | nil => rfl
  | append_singleton l w ih =>
    rw [accOf_append]
    simp only [stepV, stepCore]
    rw [List.length_set]
    exact ih

theorem accOf_byDayOfWeek_getD (l : List Workout) (i : Nat) :
    (accOf l).byDayOfWeek.getD i [] =
      (l.filter (fun w => decide (dowOf w = i))).map dayEntryOf := by
  induction l using List.reverseRecOn with
  | nil => rcases i with _ | _ | _ | _ | _ | _ | _ | i <;> rfl
  | append_singleton l w ih =>
    rw [accOf_append]
    simp only [stepV, stepCore, List.filter_append, List.map_append]
    rw [List.getD_eq_getElem?_getD, List.getElem?_set]
    by_cases h : dowOf w = i
    · subst h
      have hlt : dowOf w < (accOf l).byDayOfWeek.length := by
        rw [accOf_byDayOfWeek_length]
        exact dowOf_lt_seven w
      simp only [if_pos rfl, hlt, if_true, Option.getD_some]
      rw [ih]
      simp [dayEntryOf]
    · rw [if_neg h, ← List.getD_eq_getElem?_getD, ih]
      simp [h]

theorem accOf_byHour_getD (l : List Workout) (hh : Nat) :
    (dget (accOf l).byHour hh).getD ⟨0, 0, 0⟩ =
      countAggOf l (fun w => decide (hourOf w = hh)) := by
  induction l using List.reverseRecOn with
  | nil => rfl
  | append_singleton l w ih =>
    rw [accOf_append]
    simp only [stepV, stepCore]
    rw [dget_dstep, countAggOf_append]
    by_cases h : hh = hourOf w
    · subst h
      simp [ih]
    · rw [if_neg h, ih]
      simp [show ¬ hourOf w = hh from fun he => h he.symm]

theorem accOf_byDate_getD (l : List Workout) (ds : String) :
    (dget (accOf l).byDate ds).getD ⟨0, 0, 0⟩ =
      countAggOf l (fun w => decide (dateStrOf w = ds)) := by
  induction l using List.reverseRecOn with
  | nil => rfl
  | append_singleton l w ih =>
    rw [accOf_append]
    simp only [stepV, stepCore]
    rw [dget_dstep, countAggOf_append]
    by_cases h : ds = dateStrOf w
    · subst h
      simp [ih]
    · rw [if_neg h, ih]
      simp [show ¬ dateStrOf w = ds from fun he => h he.symm]

theorem accOf_byDate_keys_nodup (l : List Workout) :
    ((accOf l).byDate.map Prod.fst).Nodup := by
  induction l using List.reverseRecOn with
  | nil => exact List.nodup_nil
  | append_singleton l w ih =>
    rw [accOf_append]
    simp only [stepV, stepCore]
    exact nodup_keys_dstep _ _ _ _ ih

theorem accOf_byDate_keys_mem (l : List Workout) (ds : String) :
    ds ∈ (accOf l).byDate.map Prod.fst ↔ ∃ w ∈ l, dateStrOf w = ds := by
  induction l using List.reverseRecOn with
  | nil => simp [accOf, initAcc]
  | append_singleton l w ih =>
    rw [accOf_append]
    simp only [stepV, stepCore]
    rw [keys_dstep]
    by_cases h : dateStrOf w ∈ (accOf l).byDate.map Prod.fst
    · rw [if_pos h, ih]
      constructor
      · rintro ⟨w2, hw2, rfl⟩
        exact ⟨w2, by simp [hw2]⟩
      · rintro ⟨w2, hw2, rfl⟩
        rcases List.mem_append.mp hw2 with h2 | h2
        · exact ⟨w2, h2, rfl⟩
        · rw [List.mem_singleton] at h2
          subst h2
          exact ih.mp h
    · rw [if_neg h]
      rw [List.mem_append, ih, List.mem_singleton]
      constructor
      · rintro (⟨w2, hw2, rfl⟩ | rfl)
        · exact ⟨w2, by simp [hw2]⟩
        · exact ⟨w, by simp⟩
      · rintro ⟨w2, hw2, rfl⟩
        rcases List.mem_append.mp hw2 with h2 | h2
        · exact Or.inl ⟨w2, h2, rfl⟩
        · rw [List.mem_singleton] at h2
          subst h2
          exact Or.inr rfl

/-! ## Characterisation of the `byType` dictionary -/

theorem accOf_byType_dget (l : List Workout) (k : String) :
    dget (accOf l).byType k =
      if ∃ w ∈ l, typeNameOf w = k then some (typeAggOf l k) else none := by
  induction l using List.reverseRecOn with
  | nil => simp [accOf, initAcc, dget]
  | append_singleton l w ih =>
    rw [accOf_append]
    simp only [stepV, stepCore]
    rw [dget_dstep]
    by_cases hk : k = typeNameOf w
    · subst hk
      rw [if_pos rfl, if_pos ⟨w, by simp⟩, ih]
      by_cases hex : ∃ w2 ∈ l, typeNameOf w2 = typeNameOf w
      · rw [if_pos hex]
        have hsome : (l.find? (fun w2 => decide (typeNameOf w2 = typeNameOf w))).isSome := by
          rcases hex with ⟨w2, h2, h3⟩
          rw [List.find?_isSome]
          exact ⟨w2, h2, by simp [h3]⟩
        obtain ⟨w0, hw0⟩ := Option.isSome_iff_exists.mp hsome
        simp [typeAggOf, List.filter_append, List.find?_append, hw0]
      · rw [if_neg hex]
        have hnil : l.filter (fun w2 => decide (typeNameOf w2 = typeNameOf w)) = [] := by
          rw [List.filter_eq_nil_iff]
          intro a ha
          simp only [decide_eq_true_eq]
          exact fun he => hex ⟨a, ha, he⟩
        have hnone : l.find? (fun w2 => decide (typeNameOf w2 = typeNameOf w)) = none := by
          rw [List.find?_eq_none]
          intro a ha
          simp only [decide_eq_true_eq]
          exact fun he => hex ⟨a, ha, he⟩
        simp [typeAggOf, typeInit, List.filter_append, List.find?_append, hnil,
          hnone]
    · rw [if_neg hk]
      have hne : (decide (typeNameOf w = k)) = false := by
        simp only [decide_eq_false_iff_not]
        exact fun he => hk he.symm
      have hagg : typeAggOf (l ++ [w]) k = typeAggOf l k := by
        simp [typeAggOf, List.filter_append, List.find?_append, hne]
      rw [ih]
      by_cases hex : ∃ w2 ∈ l, typeNameOf w2 = k
      · rw [if_pos hex, if_pos ?side, hagg]
        case side =>
          rcases hex with ⟨w2, h2, h3⟩
          exact ⟨w2, by simp [h2], h3⟩
      · rw [if_neg hex, if_neg ?side]
        case side =>
          rintro ⟨w2, h2, h3⟩
          rcases List.mem_append.mp h2 with h4 | h4
          · exact hex ⟨w2, h4, h3⟩
          · rw [List.mem_singleton] at h4
            subst h4
            exact hk h3.symm

theorem accOf_byType_keys_nodup (l : List Workout) :
    ((accOf l).byType.map Prod.fst).Nodup := by
  induction l using List.reverseRecOn with
  | nil => exact List.nodup_nil
  | append_singleton l w ih =>
    rw [accOf_append]
    simp only [stepV, stepCore]
    exact nodup_keys_dstep _ _ _ _ ih

theorem accOf_byType_keys_mem (l : List Workout) (k : String) :
    k ∈ (accOf l).byType.map Prod.fst ↔ ∃ w ∈ l, typeNameOf w = k := by
  rw [← dget_isSome_iff, accOf_byType_dget]
  by_cases hex : ∃ w ∈ l, typeNameOf w = k <;> simp [hex]

theorem dget_of_mem_nodup {K V : Type} [DecidableEq K] (m : List (K × V))
    (hm : (m.map Prod.fst).Nodup) (p : K × V) (hp : p ∈ m) :
    dget m p.1 = some p.2 := by
  induction m with
  | nil => cases hp
  | cons q m ih =>
    simp only [List.map_cons, List.nodup_cons] at hm
    rcases List.mem_cons.mp hp with rfl | hp2
    · simp [dget_cons]
    · have hne : q.1 ≠ p.1 := by
        intro he
        exact hm.1 (he ▸ List.mem_map_of_mem Prod.fst hp2)
      rw [dget_cons, if_neg hne]
      exact ih hm.2 hp2

theorem accOf_byType_value (l : List Workout) (v : TypeAcc)
    (hv : v ∈ (accOf l).byType.map Prod.snd) :
    v = typeAggOf l v.name ∧ ∃ w ∈ l, typeNameOf w = v.name := by
  rcases List.mem_map.mp hv with ⟨p, hmem, rfl⟩
  have hd : dget (accOf l).byType p.1 = some p.2 :=
    dget_of_mem_nodup _ (accOf_byType_keys_nodup l) p hmem
  rw [accOf_byType_dget] at hd
  by_cases hex : ∃ w ∈ l, typeNameOf w = p.1
  · rw [if_pos hex] at hd
    have hv2 : p.2 = typeAggOf l p.1 := (Option.some.inj hd).symm
    have hname : p.2.name = p.1 := by rw [hv2]; rfl
    rw [hname]
    exact ⟨hv2, hex⟩
  · rw [if_neg hex] at hd
    exact absurd hd (by simp)

/-! ## Characterisation of the unique-user set -/

theorem mem_setAdd (s : List Nat) (i x : Nat) :
    x ∈ setAdd s i ↔ x ∈ s ∨ x = i := by
  unfold setAdd
  by_cases h : i ∈ s
  · simp only [h, if_true]
    constructor
    · exact Or.inl
    · rintro (hx | rfl)
      · exact hx
      · exact h
  · simp [h]

theorem nodup_setAdd (s : List Nat) (x : Nat) (h : s.Nodup) :
    (setAdd s x).Nodup := by
  unfold setAdd
  by_cases hx : x ∈ s
  · simpa [hx] using h
  · simp only [hx, if_false]
    rw [List.nodup_append]
    refine ⟨h, List.nodup_singleton x, ?_⟩
    intro a ha hb
    rw [List.mem_singleton] at hb
    exact hx (hb ▸ ha)

theorem mem_foldl_setAdd (ids : List Nat) (s : List Nat) (x : Nat) :
    x ∈ ids.foldl setAdd s ↔ x ∈ s ∨ x ∈ ids := by
  induction ids generalizing s with
  | nil => simp
  | cons i is ih =>
    simp only [List.foldl_cons, List.mem_cons]
    rw [ih]
    rw [mem_setAdd]
    tauto

theorem nodup_foldl_setAdd (ids : List Nat) (s : List Nat) (h : s.Nodup) :
    (ids.foldl setAdd s).Nodup := by
  induction ids generalizing s with
  | nil => exact h
  | cons i is ih => exact ih (setAdd s i) (nodup_setAdd s i h)

theorem usersFold_fst (tn : String) (bs : List Booking)
    (st : List Nat × List (String × List Nat)) :
    (bs.foldl (fun p b =>
      match truthyId (userIdOf b) with
      | some uid => (setAdd p.1 uid, dmod p.2 tn (fun s => setAdd s uid))
      | none => p) st).1 =
    (bs.filterMap (fun b => truthyId (userIdOf b))).foldl setAdd st.1 := by
  induction bs generalizing st with
  | nil => rfl
  | cons b bs ih =>
    simp only [List.foldl_cons, List.filterMap_cons]
    cases htr : truthyId (userIdOf b) with
    | none => exact ih st
    | some uid =>
      rw [ih]
      rfl

theorem updateUsers_fst (tn : String) (w : Workout)
    (st : List Nat × List (String × List Nat)) :
    (updateUsers tn w st).1 = (sessionUserIds w).foldl setAdd st.1 := by
  unfold updateUsers sessionUserIds
  cases hb : w.bookings with
  | none => rfl
  | some bs => exact usersFold_fst tn bs st

theorem accOf_allUsers_mem (l : List Workout) (x : Nat) :
    x ∈ (accOf l).allUniqueUsers ↔ ∃ w ∈ l, x ∈ sessionUserIds w := by
  induction l using List.reverseRecOn with
  | nil => simp [accOf, initAcc]
  | append_singleton l w ih =>
    rw [accOf_append]
    simp only [stepV, stepCore]
    rw [updateUsers_fst, mem_foldl_setAdd, ih]
    constructor
    · rintro (⟨w2, h2, h3⟩ | hx)
      · exact ⟨w2, by simp [h2], h3⟩
      · exact ⟨w, by simp, hx⟩
    · rintro ⟨w2, h2, h3⟩
      rcases List.mem_append.mp h2 with h4 | h4
      · exact Or.inl ⟨w2, h4, h3⟩
      · rw [List.mem_singleton] at h4
        subst h4
        exact Or.inr h3

theorem accOf_allUsers_nodup (l : List Workout) :
    (accOf l).allUniqueUsers.Nodup := by
  induction l using List.reverseRecOn with
  | nil => exact List.nodup_nil
  | append_singleton l w ih =>
    rw [accOf_append]
    simp only [stepV, stepCore]
    rw [updateUsers_fst]
    exact nodup_foldl_setAdd _ _ ih

/-! ## The instructor fan-out -/

theorem updateByInstructor_eq (w : Workout) (ss : List Staff)
    (m : List (String × InsAcc)) (hss : w.staffs = some ss) :
    updateByInstructor w m =
      if ss.length > 0 then
        ss.foldl (staffFoldStep (bookedOf w) (spaceOf w)) m
      else m := by
  unfold updateByInstructor
  rw [hss]
  rfl

theorem dget_staffFold_not_mem (b c : Nat) (ss : List Staff)
    (m : List (String × InsAcc)) (n : String)
    (hn : n ∉ ss.map staffNameOf) :
    dget (ss.foldl (staffFoldStep b c) m) n = dget m n := by
  induction ss generalizing m with
  | nil => rfl
  | cons s ss ih =>
    simp only [List.map_cons, List.mem_cons] at hn
    push_neg at hn
    simp only [List.foldl_cons]
    rw [ih _ hn.2]
    unfold staffFoldStep
    rw [dget_dstep, if_neg hn.1]

theorem dget_staffFold_mem (b c : Nat) (ss : List Staff)
    (m : List (String × InsAcc)) (s : Staff) (hs : s ∈ ss)
    (hnodup : (ss.map staffNameOf).Nodup) :
    dget (ss.foldl (staffFoldStep b c) m) (staffNameOf s) =
      some (insInc b c
        ((dget m (staffNameOf s)).getD (insInit (staffNameOf s) s))) := by
  induction ss generalizing m with
  | nil => cases hs
  | cons s0 ss ih =>
    simp only [List.map_cons, List.nodup_cons] at hnodup
    simp only [List.foldl_cons]
    rcases List.mem_cons.mp hs with rfl | hs2
    · rw [dget_staffFold_not_mem _ _ _ _ _ hnodup.1]
      unfold staffFoldStep
      rw [dget_dstep, if_pos rfl]
    · have hne : staffNameOf s0 ≠ staffNameOf s := by
        intro he
        exact hnodup.1 (he ▸ List.mem_map_of_mem staffNameOf hs2)
      rw [ih _ hs2 hnodup.2]
      unfold staffFoldStep
      rw [dget_dstep, if_neg (fun he => hne he.symm)]

theorem mem_keys_dstep {K V : Type} [DecidableEq K] (m : List (K × V))
    (k' : K) (v : V) (f : V → V) (k : K) :
    k ∈ (dstep m k' v f).map Prod.fst ↔ k ∈ m.map Prod.fst ∨ k = k' := by
  rw [keys_dstep]
  by_cases h : k' ∈ m.map Prod.fst
  · rw [if_pos h]
    constructor
    · exact Or.inl
    · rintro (hk | rfl)
      · exact hk
      · exact h
  · rw [if_neg h, List.mem_append, List.mem_singleton]

theorem nodup_keys_staffFold (b c : Nat) (ss : List Staff)
    (m : List (String × InsAcc)) (hm : (m.map Prod.fst).Nodup) :
    ((ss.foldl (staffFoldStep b c) m).map Prod.fst).Nodup := by
  induction ss generalizing m with
  | nil => exact hm
  | cons s ss ih => exact ih _ (nodup_keys_dstep _ _ _ _ hm)

theorem mem_keys_staffFold (b c : Nat) (ss : List Staff)
    (m : List (String × InsAcc)) (k : String) :
    k ∈ (ss.foldl (staffFoldStep b c) m).map Prod.fst ↔
      k ∈ m.map Prod.fst ∨ k ∈ ss.map staffNameOf := by
  induction ss generalizing m with
  | nil => simp
  | cons s ss ih =>
    simp only [List.foldl_cons, List.map_cons, List.mem_cons]
    rw [ih]
    unfold staffFoldStep
    rw [mem_keys_dstep]
    tauto

theorem insProj_getD (o : Option InsAcc) (k : String) (s : Staff) :
    insProj (o.getD (insInit k s)) = (o.map insProj).getD ⟨k, 0, 0, 0⟩ := by
  cases o <;> rfl

theorem insProj_insInc (b c : Nat) (v : InsAcc) :
    insProj (insInc b c v) = insCoreInc 1 b c (insProj v) := by
  simp only [insProj, insInc, insCoreInc, InsCore.mk.injEq, Nat.one_mul]

theorem insCoreInc_insCoreInc (k1 k2 b c : Nat) (v : InsCore) :
    insCoreInc k2 b c (insCoreInc k1 b c v) = insCoreInc (k1 + k2) b c v := by
  simp only [insCoreInc, InsCore.mk.injEq]
  refine ⟨trivial, by ring, by ring, by ring⟩

theorem dget_staffFold_proj (b c : Nat) (ss : List Staff)
    (m : List (String × InsAcc)) (n : String) :
    (dget (ss.foldl (staffFoldStep b c) m) n).map insProj =
      if (ss.map staffNameOf).count n = 0 then (dget m n).map insProj
      else some (insCoreInc ((ss.map staffNameOf).count n) b c
        (((dget m n).map insProj).getD ⟨n, 0, 0, 0⟩)) := by
  induction ss generalizing m with
  | nil => simp
  | cons s0 ss ih =>
    simp only [List.foldl_cons, List.map_cons]
    rw [ih]
    by_cases h0 : staffNameOf s0 = n
    · subst h0
      rw [List.count_cons_self]
      by_cases hz : (ss.map staffNameOf).count (staffNameOf s0) = 0
      · rw [if_pos hz, if_neg (Nat.succ_ne_zero _), hz]
        unfold staffFoldStep
        rw [dget_dstep, if_pos rfl, Option.map_some', insProj_insInc,
          insProj_getD]
      · rw [if_neg hz, if_neg (Nat.succ_ne_zero _)]
        unfold staffFoldStep
        rw [dget_dstep, if_pos rfl, Option.map_some', insProj_insInc,
          insProj_getD, Option.getD_some, insCoreInc_insCoreInc,
          Nat.add_comm 1]
    · have hne : ¬ n = staffNameOf s0 := fun he => h0 he.symm
      have hbeq : (staffNameOf s0 == n) = false := by
        simp only [beq_eq_false_iff_ne, ne_eq]
        exact h0
      rw [List.count_cons, hbeq]
      simp only [Bool.false_eq_true, if_false, Nat.add_zero]
      unfold staffFoldStep
      simp only [dget_dstep, if_neg hne]

theorem insCoreInc_zero (b c : Nat) (v : InsCore) :
    insCoreInc 0 b c v = v := by
  simp [insCoreInc]

theorem staffNamesOf_some (w : Workout) (ss : List Staff)
    (h : w.staffs = some ss) : staffNamesOf w = ss.map staffNameOf := by
  unfold staffNamesOf
  rw [h]
  rfl

theorem staffNamesOf_none (w : Workout) (h : w.staffs = none) :
    staffNamesOf w = [] := by
  unfold staffNamesOf
  rw [h]
  rfl

theorem insCoreOf_append (l : List Workout) (w : Workout) (n : String) :
    insCoreOf (l ++ [w]) n =
      insCoreInc ((staffNamesOf w).count n) (bookedOf w) (spaceOf w)
        (insCoreOf l n) := by
  simp [insCoreOf, insCoreInc]

theorem insCoreOf_of_not_mem (l : List Workout) (n : String)
    (h : ¬ ∃ w ∈ l, n ∈ staffNamesOf w) : insCoreOf l n = ⟨n, 0, 0, 0⟩ := by
  have hz : ∀ w ∈ l, (staffNamesOf w).count n = 0 := fun w hw =>
    List.count_eq_zero.mpr (fun hmem => h ⟨w, hw, hmem⟩)
  simp only [insCoreOf, InsCore.mk.injEq]
  refine ⟨trivial, ?_, ?_, ?_⟩ <;>
  · apply List.sum_eq_zero
    intro x hx
    rcases List.mem_map.mp hx with ⟨w, hw, rfl⟩
    simp [hz w hw]

theorem accOf_byInstructor_keys_nodup (l : List Workout) :
    ((accOf l).byInstructor.map Prod.fst).Nodup := by
  induction l using List.reverseRecOn with
  | nil => exact List.nodup_nil
  | append_singleton l w ih =>
    rw [accOf_append]
    simp only [stepV, stepCore]
    cases hss : w.staffs with
    | none =>
      unfold updateByInstructor
      rw [hss]
      exact ih
    | some ss =>
      rw [updateByInstructor_eq w ss _ hss]
      by_cases hlen : ss.length > 0
      · rw [if_pos hlen]
        exact nodup_keys_staffFold _ _ _ _ ih
      · rw [if_neg hlen]
        exact ih

theorem accOf_byInstructor_keys_mem (l : List Workout) (n : String) :
    n ∈ (accOf l).byInstructor.map Prod.fst ↔
      ∃ w ∈ l, n ∈ staffNamesOf w := by
  induction l using List.reverseRecOn with
  | nil => simp [accOf, initAcc]
  | append_singleton l w ih =>
    rw [accOf_append]
    simp only [stepV, stepCore]
    have hsplit : (∃ w2 ∈ l ++ [w], n ∈ staffNamesOf w2) ↔
        (∃ w2 ∈ l, n ∈ staffNamesOf w2) ∨ n ∈ staffNamesOf w := by
      constructor
      · rintro ⟨w2, h2, h3⟩
        rcases List.mem_append.mp h2 with h4 | h4
        · exact Or.inl ⟨w2, h4, h3⟩
        · rw [List.mem_singleton] at h4
          subst h4
          exact Or.inr h3
      · rintro (⟨w2, h2, h3⟩ | h3)
        · exact ⟨w2, by simp [h2], h3⟩
        · exact ⟨w, by simp, h3⟩
    rw [hsplit]
    cases hss : w.staffs with
    | none =>
      unfold updateByInstructor
      rw [hss, ih, staffNamesOf_none w hss]
      simp
    | some ss =>
      rw [updateByInstructor_eq w ss _ hss, staffNamesOf_some w ss hss]
      by_cases hlen : ss.length > 0
      · rw [if_pos hlen, mem_keys_staffFold, ih]
      · have hss0 : ss = [] := by
          cases ss with
          | nil => rfl
          | cons a as => simp at hlen
        subst hss0
        rw [if_neg hlen, ih]
        simp

theorem accOf_byInstructor_proj (l : List Workout) (n : String) :
    (dget (accOf l).byInstructor n).map insProj =
      if ∃ w ∈ l, n ∈ staffNamesOf w then some (insCoreOf l n) else none := by
  induction l using List.reverseRecOn with
  | nil => simp [accOf, initAcc, dget]
  | append_singleton l w ih =>
    rw [accOf_append]
    simp only [stepV, stepCore]
    have hcondn : ∀ (hni : n ∉ staffNamesOf w),
        ((∃ w2 ∈ l ++ [w], n ∈ staffNamesOf w2) ↔
          ∃ w2 ∈ l, n ∈ staffNamesOf w2) := by
      intro hni
      constructor
      · rintro ⟨w2, h2, h3⟩
        rcases List.mem_append.mp h2 with h4 | h4
        · exact ⟨w2, h4, h3⟩
        · rw [List.mem_singleton] at h4
          subst h4
          exact absurd h3 hni
      · rintro ⟨w2, h2, h3⟩
        exact ⟨w2, by simp [h2], h3⟩
    cases hss : w.staffs with
    | none =>
      unfold updateByInstructor
      rw [hss, ih]
      have hnames := staffNamesOf_none w hss
      have hni : n ∉ staffNamesOf w := by
        rw [hnames]
        exact List.not_mem_nil n
      have hagg : insCoreOf (l ++ [w]) n = insCoreOf l n := by
        rw [insCoreOf_append, List.count_eq_zero.mpr hni, insCoreInc_zero]
      by_cases hex : ∃ w2 ∈ l, n ∈ staffNamesOf w2
      · rw [if_pos hex, if_pos ((hcondn hni).mpr hex), hagg]
      · rw [if_neg hex, if_neg (fun hc => hex ((hcondn hni).mp hc))]
    | some ss =>
      rw [updateByInstructor_eq w ss _ hss]
      have hnames := staffNamesOf_some w ss hss
      by_cases hlen : ss.length > 0
      · rw [if_pos hlen, dget_staffFold_proj, ih, ← hnames]
        by_cases hcnt : (staffNamesOf w).count n = 0
        · rw [if_pos hcnt]
          have hni : n ∉ staffNamesOf w := List.count_eq_zero.mp hcnt
          have hagg : insCoreOf (l ++ [w]) n = insCoreOf l n := by
            rw [insCoreOf_append, hcnt, insCoreInc_zero]
          by_cases hex : ∃ w2 ∈ l, n ∈ staffNamesOf w2
          · rw [if_pos hex, if_pos ((hcondn hni).mpr hex), hagg]
          · rw [if_neg hex, if_neg (fun hc => hex ((hcondn hni).mp hc))]
        · rw [if_neg hcnt]
          have hmm : n ∈ staffNamesOf w := by
            by_contra hni
            exact hcnt (List.count_eq_zero.mpr hni)
          have hwit : ∃ w2 ∈ l ++ [w], n ∈ staffNamesOf w2 := ⟨w, by simp, hmm⟩
          by_cases hex : ∃ w2 ∈ l, n ∈ staffNamesOf w2
          · rw [if_pos hex, Option.getD_some, if_pos hwit, insCoreOf_append]
          · rw [if_neg hex, Option.getD_none, if_pos hwit, insCoreOf_append,
              insCoreOf_of_not_mem l n hex]
      · have hss0 : ss = [] := by
          cases ss with
          | nil => rfl
          | cons a as => simp at hlen
        subst hss0
        rw [if_neg hlen, ih]
        have hni : n ∉ staffNamesOf w := by
          rw [hnames]
          exact List.not_mem_nil n
        have hagg : insCoreOf (l ++ [w]) n = insCoreOf l n := by
          rw [insCoreOf_append, List.count_eq_zero.mpr hni, insCoreInc_zero]
        by_cases hex : ∃ w2 ∈ l, n ∈ staffNamesOf w2
        · rw [if_pos hex, if_pos ((hcondn hni).mpr hex), hagg]
        · rw [if_neg hex, if_neg (fun hc => hex ((hcondn hni).mp hc))]

/-! ## Stable sort lemmas -/

theorem sInsert_perm {α : Type} (le : α → α → Bool) (x : α) (l : List α) :
    List.Perm (sInsert le x l) (x :: l) := by
  induction l with
  | nil => exact List.Perm.refl _
  | cons y ys ih =>
    unfold sInsert
    by_cases h : le y x
    · simp only [h, if_true]
      exact (ih.cons y).trans (List.Perm.swap x y ys)
    · simp only [h, if_false]
      exact List.Perm.refl _

theorem stableSort_fold_perm {α : Type} (le : α → α → Bool) (l acc : List α) :
    List.Perm (l.foldl (fun a x => sInsert le x a) acc) (acc ++ l) := by
  induction l generalizing acc with
  | nil => simp
  | cons x xs ih =>
    simp only [List.foldl_cons]
    refine (ih (sInsert le x acc)).trans ?_
    have h1 : List.Perm (sInsert le x acc ++ xs) ((x :: acc) ++ xs) :=
      (sInsert_perm le x acc).append_right xs
    refine h1.trans ?_
    simp only [List.cons_append]
    exact List.perm_middle.symm

theorem stableSort_perm {α : Type} (le : α → α → Bool) (l : List α) :
    List.Perm (stableSort le l) l := by
  unfold stableSort
  simpa using stableSort_fold_perm le l []

theorem mem_stableSort {α : Type} (le : α → α → Bool) (l : List α) (a : α) :
    a ∈ stableSort le l ↔ a ∈ l :=
  (stableSort_perm le l).mem_iff

theorem sInsert_pairwise {α : Type} (le : α → α → Bool)
    (htot : ∀ a b, le a b = true ∨ le b a = true)
    (htrans : ∀ a b c, le a b = true → le b c = true → le a c = true)
    (x : α) (l : List α) (h : l.Pairwise (fun a b => le a b = true)) :
    (sInsert le x l).Pairwise (fun a b => le a b = true) := by
  induction l with
  | nil => simp [sInsert]
  | cons y ys ih =>
    rcases List.pairwise_cons.mp h with ⟨hy, hys⟩
    unfold sInsert
    by_cases hle : le y x
    · simp only [hle, if_true]
      refine List.pairwise_cons.mpr ⟨?_, ih hys⟩
      intro b hb
      rcases List.mem_cons.mp ((sInsert_perm le x ys).mem_iff.mp hb) with rfl | hbys
      · exact hle
      · exact hy b hbys
    · have hxy : le x y = true := by
        rcases htot y x with hyx | hxy
        · exact absurd hyx hle
        · exact hxy
      simp only [hle, if_false]
      refine List.pairwise_cons.mpr ⟨?_, h⟩
      intro b hb
      rcases List.mem_cons.mp hb with rfl | hbys
      · exact hxy
      · exact htrans x y b hxy (hy b hbys)

theorem stableSort_pairwise {α : Type} (le : α → α → Bool)
    (htot : ∀ a b, le a b = true ∨ le b a = true)
    (htrans : ∀ a b c, le a b = true → le b c = true → le a c = true)
    (l : List α) :
    (stableSort le l).Pairwise (fun a b => le a b = true) := by
  unfold stableSort
  have main : ∀ acc, acc.Pairwise (fun a b => le a b = true) →
      (l.foldl (fun a x => sInsert le x a) acc).Pairwise
        (fun a b => le a b = true) := by
    induction l with
    | nil => exact fun acc h => h
    | cons x xs ih =>
      intro acc hacc
      exact ih (sInsert le x acc) (sInsert_pairwise le htot htrans x acc hacc)
  exact main [] (by simp)

/-! ## The JS string order -/

theorem char_toNat_inj {a b : Char} (h : a.toNat = b.toNat) : a = b := by
  have h2 := congrArg Char.ofNat h
  rwa [Char.ofNat_toNat, Char.ofNat_toNat] at h2

theorem strLtChars_irrefl (as : List Char) : strLtChars as as = false := by
  induction as with
  | nil => rfl
  | cons a as ih => simp [strLtChars, ih]

theorem strLtChars_trans (as : List Char) : ∀ (bs cs : List Char),
    strLtChars as bs = true → strLtChars bs cs = true →
    strLtChars as cs = true := by
  induction as with
  | nil =>
    intro bs cs h1 h2
    cases bs with
    | nil => simp [strLtChars] at h1
    | cons b bs =>
      cases cs with
      | nil => simp [strLtChars] at h2
      | cons c cs => rfl
  | cons a as ih =>
    intro bs cs h1 h2
    cases bs with
    | nil => simp [strLtChars] at h1
    | cons b bs =>
      cases cs with
      | nil => simp [strLtChars] at h2
      | cons c cs =>
        simp only [strLtChars] at h1 h2 ⊢
        split_ifs at h1 h2 ⊢ <;> first
          | rfl
          | omega
          | (exact ih bs cs h1 h2)

theorem strLtChars_total (as : List Char) : ∀ (bs : List Char),
    strLtChars as bs = true ∨ strLtChars bs as = true ∨ as = bs := by
  induction as with
  | nil =>
    intro bs
    cases bs with
    | nil => exact Or.inr (Or.inr rfl)
    | cons b bs => exact Or.inl rfl
  | cons a as ih =>
    intro bs
    cases bs with
    | nil => exact Or.inr (Or.inl rfl)
    | cons b bs =>
      by_cases hab : a.toNat < b.toNat
      · exact Or.inl (by simp [strLtChars, hab])
      · by_cases hba : b.toNat < a.toNat
        · exact Or.inr (Or.inl (by simp [strLtChars, hba, hab]))
        · have heq : a = b := char_toNat_inj (by omega)
          subst heq
          rcases ih bs with h | h | rfl
          · exact Or.inl (by simp [strLtChars, h])
          · exact Or.inr (Or.inl (by simp [strLtChars, h]))
          · exact Or.inr (Or.inr rfl)

theorem strLtChars_asymm (as bs : List Char) (h : strLtChars as bs = true) :
    strLtChars bs as = false := by
  cases hval : strLtChars bs as with
  | false => rfl
  | true =>
    have h2 := strLtChars_trans as bs as h hval
    rw [strLtChars_irrefl] at h2
    cases h2

theorem strLeJS_total (a b : String) :
    strLeJS a b = true ∨ strLeJS b a = true := by
  unfold strLeJS
  rcases strLtChars_total a.data b.data with h | h | h
  · exact Or.inl (by simp [strLtChars_asymm _ _ h])
  · exact Or.inr (by simp [strLtChars_asymm _ _ h])
  · exact Or.inl (by simp [h, strLtChars_irrefl])

theorem strLeJS_trans (a b c : String) (h1 : strLeJS a b = true)
    (h2 : strLeJS b c = true) : strLeJS a c = true := by
  unfold strLeJS at h1 h2 ⊢
  rw [Bool.not_eq_true'] at h1 h2 ⊢
  cases hlt : strLtChars c.data a.data with
  | false => rfl
  | true =>
    exfalso
    rcases strLtChars_total a.data b.data with hab | hba | heq
    · have h3 := strLtChars_trans c.data a.data b.data hlt hab
      rw [h2] at h3
      cases h3
    · rw [h1] at hba
      cases hba
    · rw [heq] at hlt
      rw [h2] at hlt
      cases hlt

theorem strLeJS_ne_lt (a b : String) (hle : strLeJS a b = true)
    (hne : a ≠ b) : strLtJS a b = true := by
  unfold strLeJS at hle
  unfold strLtJS
  rw [Bool.not_eq_true'] at hle
  rcases strLtChars_total a.data b.data with h | h | h
  · exact h
  · rw [hle] at h
    cases h
  · exact absurd (String.ext h) hne

/-! ## Characterisation of the per-type unique-user sets -/

theorem usersFold_snd (tn : String) (bs : List Booking)
    (st : List Nat × List (String × List Nat)) :
    (bs.foldl (fun p b =>
      match truthyId (userIdOf b) with
      | some uid => (setAdd p.1 uid, dmod p.2 tn (fun s => setAdd s uid))
      | none => p) st).2 =
    (bs.filterMap (fun b => truthyId (userIdOf b))).foldl
      (fun m uid => dmod m tn (fun s => setAdd s uid)) st.2 := by
  induction bs generalizing st with
  | nil => rfl
  | cons b bs ih =>
    simp only [List.foldl_cons, List.filterMap_cons]
    cases htr : truthyId (userIdOf b) with
    | none => exact ih st
    | some uid =>
      rw [ih]
      rfl

theorem updateUsers_snd (tn : String) (w : Workout)
    (st : List Nat × List (String × List Nat)) :
    (updateUsers tn w st).2 = (sessionUserIds w).foldl
      (fun m uid => dmod m tn (fun s => setAdd s uid)) st.2 := by
  unfold updateUsers sessionUserIds
  cases hb : w.bookings with
  | none => rfl
  | some bs => exact usersFold_snd tn bs st

theorem dget_foldl_dmod (ids : List Nat) (m : List (String × List Nat))
    (tn k : String) :
    dget (ids.foldl (fun m uid => dmod m tn (fun s => setAdd s uid)) m) k =
      if k = tn then (dget m k).map (fun s => ids.foldl setAdd s)
      else dget m k := by
  induction ids generalizing m with
  | nil =>
    by_cases h : k = tn <;> simp [h]
  | cons uid ids ih =>
    simp only [List.foldl_cons]
    rw [ih, dget_dmod]
    by_cases h : k = tn
    · simp only [h, if_true, Option.map_map]
      rfl
    · simp [h]

theorem keys_foldl_dmod (ids : List Nat) (m : List (String × List Nat))
    (tn : String) :
    (ids.foldl (fun m uid => dmod m tn (fun s => setAdd s uid)) m).map
        Prod.fst = m.map Prod.fst := by
  induction ids generalizing m with
  | nil => rfl
  | cons uid ids ih => rw [List.foldl_cons, ih, keys_dmod]

theorem accOf_uubt_keys (l : List Workout) :
    (accOf l).uniqueUsersByType.map Prod.fst =
      (accOf l).byType.map Prod.fst := by
  induction l using List.reverseRecOn with
  | nil => rfl
  | append_singleton l w ih =>
    rw [accOf_append]
    simp only [stepV, stepCore]
    rw [updateUsers_snd, keys_foldl_dmod, keys_dstep]
    by_cases h : (dget (accOf l).byType (typeNameOf w)).isSome
    · rw [if_pos h, if_pos ((dget_isSome_iff _ _).mp h)]
      exact ih
    · have h2 : typeNameOf w ∉ (accOf l).byType.map Prod.fst :=
        fun hmem => h ((dget_isSome_iff _ _).mpr hmem)
      rw [if_neg h, if_neg h2, List.map_append, ih]
      rfl

theorem accOf_uubt_dget (l : List Workout) (k : String) :
    dget (accOf l).uniqueUsersByType k =
      if ∃ w ∈ l, typeNameOf w = k then some (userSetOf l k) else none := by
  induction l using List.reverseRecOn with
  | nil => simp [accOf, initAcc, dget]
  | append_singleton l w ih =>
    rw [accOf_append]
    simp only [stepV, stepCore]
    rw [updateUsers_snd, dget_foldl_dmod]
    by_cases hk : k = typeNameOf w
    · subst hk
      rw [if_pos rfl]
      have hflt : (l ++ [w]).filter
            (fun w2 => decide (typeNameOf w2 = typeNameOf w)) =
          l.filter (fun w2 => decide (typeNameOf w2 = typeNameOf w)) ++ [w] := by
        rw [List.filter_append]
        simp
      by_cases hex : ∃ w2 ∈ l, typeNameOf w2 = typeNameOf w
      · have hmem : (dget (accOf l).byType (typeNameOf w)).isSome :=
          (dget_isSome_iff _ _).mpr
            ((accOf_byType_keys_mem l (typeNameOf w)).mpr hex)
        rw [if_pos hmem]
        dsimp only
        rw [ih, if_pos hex, if_pos ⟨w, by simp⟩]
        have heq2 : userSetOf (l ++ [w]) (typeNameOf w) =
            (sessionUserIds w).foldl setAdd (userSetOf l (typeNameOf w)) := by
          unfold userSetOf
          rw [hflt, List.map_append, List.flatten_append, List.foldl_append]
          simp
        rw [heq2]
        rfl
      · have hmem : ¬ (dget (accOf l).byType (typeNameOf w)).isSome = true :=
          fun hs =>
            hex ((accOf_byType_keys_mem l (typeNameOf w)).mp
              ((dget_isSome_iff _ _).mp hs))
        rw [if_neg hmem]
        dsimp only
        rw [dget_append_single, ih, if_neg hex, if_pos rfl, if_pos ⟨w, by simp⟩]
        have hnil : l.filter
            (fun w2 => decide (typeNameOf w2 = typeNameOf w)) = [] := by
          rw [List.filter_eq_nil_iff]
          intro a ha hdec
          exact hex ⟨a, ha, of_decide_eq_true hdec⟩
        have heq2 : userSetOf (l ++ [w]) (typeNameOf w) =
            (sessionUserIds w).foldl setAdd [] := by
          unfold userSetOf
          rw [hflt, hnil]
          simp
        rw [heq2]
        rfl
    · rw [if_neg hk]
      dsimp only
      have huubt0 :
          dget (if (dget (accOf l).byType (typeNameOf w)).isSome = true then
              (accOf l).uniqueUsersByType
            else (accOf l).uniqueUsersByType ++ [(typeNameOf w, [])]) k =
          dget (accOf l).uniqueUsersByType k := by
        by_cases h : (dget (accOf l).byType (typeNameOf w)).isSome
        · rw [if_pos h]
        · rw [if_neg h, dget_append_single]
          rw [if_neg (fun he => hk he.symm)]
          cases dget (accOf l).uniqueUsersByType k <;> rfl
      rw [huubt0, ih]
      have hflt : (l ++ [w]).filter (fun w2 => decide (typeNameOf w2 = k)) =
          l.filter (fun w2 => decide (typeNameOf w2 = k)) := by
        rw [List.filter_append]
        have hd : decide (typeNameOf w = k) = false :=
          decide_eq_false (fun he => hk he.symm)
        simp [hd]
      by_cases hex : ∃ w2 ∈ l, typeNameOf w2 = k
      · rw [if_pos hex, if_pos ?side]
        case side =>
          rcases hex with ⟨w2, h2, h3⟩
          exact ⟨w2, by simp [h2], h3⟩
        unfold userSetOf
        rw [hflt]
      · rw [if_neg hex, if_neg ?side]
        case side =>
          rintro ⟨w2, h2, h3⟩
          rcases List.mem_append.mp h2 with h4 | h4
          · exact hex ⟨w2, h4, h3⟩
          · rw [List.mem_singleton] at h4
            subst h4
            exact hk h3.symm

theorem mem_userSetOf (l : List Workout) (k : String) (x : Nat) :
    x ∈ userSetOf l k ↔
      ∃ w ∈ l, typeNameOf w = k ∧ x ∈ sessionUserIds w := by
  unfold userSetOf
  rw [mem_foldl_setAdd]
  simp only [List.not_mem_nil, false_or, List.mem_flatten, List.mem_map]
  constructor
  · rintro ⟨s, ⟨w, hw, rfl⟩, hx⟩
    rw [List.mem_filter] at hw
    exact ⟨w, hw.1, of_decide_eq_true hw.2, hx⟩
  · rintro ⟨w, hw, hty, hx⟩
    exact ⟨sessionUserIds w, ⟨w, List.mem_filter.mpr ⟨hw, by simp [hty]⟩, rfl⟩, hx⟩

theorem nodup_userSetOf (l : List Workout) (k : String) :
    (userSetOf l k).Nodup :=
  nodup_foldl_setAdd _ _ List.nodup_nil

/-! ## Value semantics of `JsNum` -/

theorem gcdF_eq : ∀ (f a b : Nat), a < f → gcdF f a b = Nat.gcd a b := by
  intro f
  induction f with
  | zero => intro a b h; omega
  | succ f ih =>
    intro a b h
    cases a with
    | zero => simp [gcdF]
    | succ a =>
      rw [gcdF]
      have hmod : b % (a + 1) < f := by
        have := Nat.mod_lt b (show 0 < a + 1 by omega)
        omega
      rw [ih (b % (a + 1)) (a + 1) hmod]
      exact (Nat.gcd_rec (a + 1) b).symm

theorem natGcd_eq (a b : Nat) : natGcd a b = Nat.gcd a b :=
  gcdF_eq (a + 1) a b (Nat.lt_succ_self a)

theorem jsNumZero_good : goodJsNum jsNumZero := by
  constructor
  · decide
  · decide

theorem mkJsNum_good (p q : Nat) (hq : 0 < q) : goodJsNum (mkJsNum p q) := by
  unfold mkJsNum goodJsNum
  rw [if_neg (by omega)]
  dsimp only
  rw [natGcd_eq]
  have hg : 0 < Nat.gcd p q := Nat.gcd_pos_of_pos_right p hq
  constructor
  · exact Nat.coprime_div_gcd_div_gcd hg
  · exact Nat.div_pos (Nat.le_of_dvd hq (Nat.gcd_dvd_right p q)) hg

theorem mkJsNum_val (p q : Nat) (hq : 0 < q) :
    jsNumVal (mkJsNum p q) = (p : ℚ) / (q : ℚ) := by
  unfold mkJsNum jsNumVal
  rw [if_neg (by omega)]
  dsimp only
  rw [natGcd_eq]
  have hg : 0 < Nat.gcd p q := Nat.gcd_pos_of_pos_right p hq
  have hgq : ((Nat.gcd p q : ℕ) : ℚ) ≠ 0 := by exact_mod_cast hg.ne'
  have hq' : ((q : ℕ) : ℚ) ≠ 0 := by exact_mod_cast hq.ne'
  rw [Nat.cast_div (Nat.gcd_dvd_left p q) hgq,
    Nat.cast_div (Nat.gcd_dvd_right p q) hgq]
  rw [div_div_div_comm, div_self hgq, div_one]

theorem goodJsNum_inj (v1 v2 : JsNum) (h1 : goodJsNum v1) (h2 : goodJsNum v2)
    (hval : jsNumVal v1 = jsNumVal v2) : v1 = v2 := by
  obtain ⟨hc1, hd1⟩ := h1
  obtain ⟨hc2, hd2⟩ := h2
  unfold jsNumVal at hval
  rw [div_eq_div_iff (by exact_mod_cast hd1.ne') (by exact_mod_cast hd2.ne')]
    at hval
  have hcross : v1.n * v2.d = v2.n * v1.d := by exact_mod_cast hval
  have hdd : v1.d = v2.d := by
    apply Nat.dvd_antisymm
    · exact (Nat.Coprime.dvd_of_dvd_mul_left hc1.symm
        ⟨v2.n, by rw [hcross, Nat.mul_comm]⟩)
    · exact (Nat.Coprime.dvd_of_dvd_mul_left hc2.symm
        ⟨v1.n, by rw [← hcross, Nat.mul_comm]⟩)
  have hnn : v1.n = v2.n := by
    apply Nat.eq_of_mul_eq_mul_right hd2
    rw [hcross, hdd]
  cases v1
  cases v2
  simp_all

theorem addJsNum_good (a b : JsNum) (ha : 0 < a.d) (hb : 0 < b.d) :
    goodJsNum (addJsNum a b) :=
  mkJsNum_good _ _ (Nat.mul_pos ha hb)

theorem addJsNum_val (a b : JsNum) (ha : 0 < a.d) (hb : 0 < b.d) :
    jsNumVal (addJsNum a b) = jsNumVal a + jsNumVal b := by
  unfold addJsNum
  rw [mkJsNum_val _ _ (Nat.mul_pos ha hb)]
  unfold jsNumVal
  have ha' : ((a.d : ℕ) : ℚ) ≠ 0 := by exact_mod_cast ha.ne'
  have hb' : ((b.d : ℕ) : ℚ) ≠ 0 := by exact_mod_cast hb.ne'
  push_cast
  field_simp

theorem foldl_addJsNum_good (l : List JsNum) (acc : JsNum)
    (hacc : goodJsNum acc) (h : ∀ v ∈ l, 0 < v.d) :
    goodJsNum (l.foldl addJsNum acc) := by
  induction l generalizing acc with
  | nil => exact hacc
  | cons v vs ih =>
    simp only [List.foldl_cons]
    exact ih (addJsNum acc v)
      (addJsNum_good acc v hacc.2 (h v (by simp)))
      (fun u hu => h u (by simp [hu]))

theorem foldl_addJsNum_val (l : List JsNum) (acc : JsNum)
    (hacc : goodJsNum acc) (h : ∀ v ∈ l, 0 < v.d) :
    jsNumVal (l.foldl addJsNum acc) = jsNumVal acc + (l.map jsNumVal).sum := by
  induction l generalizing acc with
  | nil => simp
  | cons v vs ih =>
    simp only [List.foldl_cons, List.map_cons, List.sum_cons]
    rw [ih (addJsNum acc v)
      (addJsNum_good acc v hacc.2 (h v (by simp)))
      (fun u hu => h u (by simp [hu]))]
    rw [addJsNum_val acc v hacc.2 (h v (by simp))]
    ring

theorem sumJsNum_perm (l1 l2 : List JsNum) (hp : List.Perm l1 l2)
    (h : ∀ v ∈ l1, 0 < v.d) : sumJsNum l1 = sumJsNum l2 := by
  have h2 : ∀ v ∈ l2, 0 < v.d := fun v hv => h v (hp.mem_iff.mpr hv)
  apply goodJsNum_inj
  · exact foldl_addJsNum_good l1 jsNumZero jsNumZero_good h
  · exact foldl_addJsNum_good l2 jsNumZero jsNumZero_good h2
  · unfold sumJsNum
    rw [foldl_addJsNum_val l1 jsNumZero jsNumZero_good h,
      foldl_addJsNum_val l2 jsNumZero jsNumZero_good h2,
      (hp.map jsNumVal).sum_eq]

theorem jsMeanOf_perm (l1 l2 : List JsNum) (hp : List.Perm l1 l2)
    (h : ∀ v ∈ l1, 0 < v.d) : jsMeanOf l1 = jsMeanOf l2 := by
  unfold jsMeanOf
  rw [sumJsNum_perm l1 l2 hp h, hp.length_eq]

theorem sessionRatio_dpos (w : Workout) : 0 < (sessionRatio w).d := by
  unfold sessionRatio
  by_cases h : spaceOf w > 0
  · simp only [h, if_true]
    exact (mkJsNum_good _ _ h).2
  · simp only [h, if_false]
    decide

/-! ## Claim C1 -/

/-- C1 fails as stated: a structurally valid session object with the
`startTime` field absent makes `processAnalytics` throw a `TypeError`
at `w.startTime.split(' ')` (line 741), so the function is not total
over sequences in which `startTime` may be absent. -/
theorem claim_C1_counterexample :
    processAnalytics [emptyWorkout] = none ∧
    ¬ (∀ l : List Workout, (processAnalytics l).isSome = true) := by
  refine ⟨by decide, fun h => ?_⟩
  have := h [emptyWorkout]
  simp [show processAnalytics [emptyWorkout] = none from by decide] at this

/-- C1 (amended): `processAnalytics` is total over every sequence of
structurally valid session objects in which each session's `startTime`
is present and parses as a valid timestamp; the other fields
(`capacity`, `type`, `staffs`, `bookings`) may be absent, and are then
replaced by the documented defaults rather than causing a failure. -/
theorem claim_C1 (l : List Workout) (h : ∀ w ∈ l, validW w = true) :
    (processAnalytics l).isSome = true := by
  rw [processAnalytics_eq]
  simp [List.all_eq_true.mpr h]

/-- C1 witness: a session with only `startTime` present (capacity, type,
staffs, bookings all absent) is processed without failure. -/
theorem claim_C1_witness : (processAnalytics [wOnlyStart]).isSome = true :=
  claim_C1 [wOnlyStart] (by decide)

/-! ## Claim C2 -/

/-- C2: whenever the aggregator returns a report, `summary.totalCapacity`
is the sum of the sessions' capacities (absent capacity counted `0`),
`summary.totalBooked` is the sum of the booked counts,
`summary.totalClasses` is the number of sessions,
`summary.fullyBookedClasses` counts exactly the sessions with
`capacity > 0` and `booked ≥ capacity`, and `summary.emptyClasses`
counts exactly the sessions with `booked = 0` (any capacity). -/
theorem claim_C2 (l : List Workout) (out : AnalyticsReport)
    (h : processAnalytics l = some out) :
    out.summary.totalCapacity = (l.map spaceOf).sum ∧
    out.summary.totalBooked = (l.map bookedOf).sum ∧
    out.summary.totalClasses = l.length ∧
    out.summary.fullyBookedClasses =
      l.countP (fun w => decide (spaceOf w > 0 ∧ bookedOf w ≥ spaceOf w)) ∧
    out.summary.emptyClasses = l.countP (fun w => decide (bookedOf w = 0)) := by
  obtain ⟨-, rfl⟩ := processAnalytics_some l out h
  refine ⟨?_, ?_, ?_, ?_, ?_⟩ <;>
    simp [finalize, accOf_totalCapacity, accOf_totalBooked, accOf_totalClasses,
      accOf_fullyBooked, accOf_emptyClasses]

/-! ## Rate formatting lemmas -/

theorem jsRatePct_eq_num_iff (n d : Nat) :
    jsRatePct n d = .num jsNumZero ↔ d = 0 := by
  unfold jsRatePct
  by_cases h : d > 0
  · simp [h]
    omega
  · simp [h]
    omega

theorem jsRatePct_pos (n d : Nat) (h : 0 < d) :
    jsRatePct n d = .str (toFixed1Frac (100 * n) d) := by
  unfold jsRatePct
  simp [h]

theorem toFixed1Frac_shape (p q : Nat) :
    ∃ t : Nat, toFixed1Frac p q = s!"{t / 10}.{t % 10}" :=
  ⟨(20 * p + q) / (2 * q), rfl⟩

theorem jsMeanOf_eq_num_iff (bs : List JsNum) :
    jsMeanOf bs = .num jsNumZero ↔ bs = [] := by
  cases bs with
  | nil => simp [jsMeanOf]
  | cons x xs => simp [jsMeanOf]

theorem foldl_add_proj {α : Type} (f : α → Nat) (data : List α) (init : Nat) :
    data.foldl (fun s d => s + f d) init = init + (data.map f).sum := by
  induction data generalizing init with
  | nil => simp
  | cons x xs ih => simp [ih, Nat.add_assoc]

/-! ## Claim C3 -/

/-- C3: every rate field of the report is produced by the guarded
percentage pattern `den > 0 ? (num / den * 100).toFixed(1) : 0` applied
to its documented numerator and denominator (for `byDay`/`byHour` the
denominator is the bucket's capacity sum over the input), and that
pattern yields the literal number `0` exactly when the denominator is
`0` — never NaN or Infinity — and otherwise a percentage rounded to one
decimal place rendered as text with a trailing decimal digit. -/
theorem claim_C3 (l : List Workout) (out : AnalyticsReport)
    (h : processAnalytics l = some out) :
    (out.summary.overallAttendanceRate =
        jsRatePct out.summary.totalBooked out.summary.totalCapacity) ∧
    (out.summary.fullyBookedRate =
        jsRatePct out.summary.fullyBookedClasses out.summary.totalClasses) ∧
    (out.summary.emptyRate =
        jsRatePct out.summary.emptyClasses out.summary.totalClasses) ∧
    (∀ t ∈ out.byType,
      t.attendanceRate = jsRatePct t.totalBooked t.totalCapacity ∧
      t.avgBookingRate = jsMeanOf t.bookings) ∧
    (∀ i ∈ out.byInstructor,
      i.attendanceRate = jsRatePct i.totalBooked i.totalCapacity) ∧
    (∀ e ∈ out.dailyTrend,
      e.attendanceRate = jsRatePct e.totalBooked e.totalCapacity) ∧
    (∀ d ∈ out.byDay,
      d.attendanceRate =
        jsRatePct
          (((l.filter (fun w => decide (dowOf w = d.dayIndex))).map bookedOf).sum)
          (((l.filter (fun w => decide (dowOf w = d.dayIndex))).map spaceOf).sum)) ∧
    (∀ hs ∈ out.byHour,
      hs.attendanceRate =
        jsRatePct
          (countAggOf l (fun w => decide (hourOf w = hs.hour))).totalBooked
          (countAggOf l (fun w => decide (hourOf w = hs.hour))).totalCapacity) ∧
    (∀ num den : Nat,
      (jsRatePct num den = .num jsNumZero ↔ den = 0) ∧
      (0 < den → ∃ t : Nat, jsRatePct num den = .str (s!"{t / 10}.{t % 10}"))) ∧
    (∀ bs : List JsNum, jsMeanOf bs = .num jsNumZero ↔ bs = []) := by
  obtain ⟨-, rfl⟩ := processAnalytics_some l out h
  refine ⟨rfl, rfl, rfl, ?_, ?_, ?_, ?_, ?_, ?_, ?_⟩
  · intro t ht
    simp only [finalize] at ht
    rcases List.mem_map.mp ((mem_stableSort _ _ t).mp ht) with ⟨v, hv, rfl⟩
    exact ⟨rfl, rfl⟩
  · intro i hi
    simp only [finalize] at hi
    rcases List.mem_map.mp ((mem_stableSort _ _ i).mp hi) with ⟨v, hv, rfl⟩
    exact rfl
  · intro e he
    simp only [finalize] at he
    rcases List.mem_map.mp he with ⟨dk, hdk, rfl⟩
    exact rfl
  · intro d hd
    simp only [finalize] at hd
    rcases List.mem_map.mp hd with ⟨p, hp, rfl⟩
    simp only [mkDayStat]
    rw [accOf_byDayOfWeek_getD]
    congr 1
    · rw [foldl_add_proj, List.map_map]
      simp only [Nat.zero_add]
      exact congrArg List.sum (List.map_congr_left (fun w _ => rfl))
    · rw [foldl_add_proj, List.map_map]
      simp only [Nat.zero_add]
      exact congrArg List.sum (List.map_congr_left (fun w _ => rfl))
  · intro hs hh
    simp only [finalize] at hh
    rcases List.mem_map.mp hh with ⟨hr, hhr, rfl⟩
    simp only [mkHourStat]
    rw [accOf_byHour_getD]
  · intro num den
    refine ⟨jsRatePct_eq_num_iff num den, fun hden => ?_⟩
    obtain ⟨t, ht⟩ := toFixed1Frac_shape (100 * num) den
    exact ⟨t, by rw [jsRatePct_pos num den hden, ht]⟩
  · exact jsMeanOf_eq_num_iff

/-- C3 witness: the Spin pair; the overall attendance rate is the
percentage string `"66.7"` produced by the guarded pattern. -/
theorem claim_C3_witness :
    processAnalytics [wSpin1, wSpin2] =
      some (finalize (accOf [wSpin1, wSpin2])) ∧
    (finalize (accOf [wSpin1, wSpin2])).summary.overallAttendanceRate =
      jsRatePct 10 15 ∧
    jsRatePct 10 15 = .str "66.7" := by
  have hp : processAnalytics [wSpin1, wSpin2] =
      some (finalize (accOf [wSpin1, wSpin2])) := by decide
  have h := claim_C3 [wSpin1, wSpin2] (finalize (accOf [wSpin1, wSpin2])) hp
  refine ⟨hp, ?_, by decide⟩
  rw [h.1]
  decide

/-! ## Claim C5 -/

/-- C5: in every type group, `bookings` is the list of the group's
per-session booked/capacity ratios (a ratio is `0` when that session's
capacity is `0`), `avgBookingRate` is the mean of those per-session
ratios, while `attendanceRate` is the percentage of the summed booked
over the summed capacity; in particular, for two sessions of one type
with capacities 10 and 5 and booked 10 and 0, `attendanceRate` is
`"66.7"` and `avgBookingRate` is `"50.0"`. -/
theorem claim_C5 (l : List Workout) (out : AnalyticsReport)
    (h : processAnalytics l = some out) :
    (∀ t ∈ out.byType,
      t.bookings =
        (l.filter (fun w => decide (typeNameOf w = t.name))).map sessionRatio ∧
      t.totalBooked =
        ((l.filter (fun w => decide (typeNameOf w = t.name))).map bookedOf).sum ∧
      t.totalCapacity =
        ((l.filter (fun w => decide (typeNameOf w = t.name))).map spaceOf).sum ∧
      t.avgBookingRate = jsMeanOf t.bookings ∧
      t.attendanceRate = jsRatePct t.totalBooked t.totalCapacity) ∧
    (processAnalytics [wSpin1, wSpin2]).map
        (fun o => o.byType.map (fun t => (t.attendanceRate, t.avgBookingRate))) =
      some [(.str "66.7", .str "50.0")] := by
  refine ⟨?_, by decide⟩
  obtain ⟨-, rfl⟩ := processAnalytics_some l out h
  intro t ht
  simp only [finalize] at ht
  rcases List.mem_map.mp ((mem_stableSort _ _ t).mp ht) with ⟨v, hv, rfl⟩
  obtain ⟨hveq, -⟩ := accOf_byType_value l v hv
  exact ⟨congrArg TypeAcc.bookings hveq, congrArg TypeAcc.totalBooked hveq,
    congrArg TypeAcc.totalCapacity hveq, rfl, rfl⟩

/-- C5 witness: the asymmetric Spin pair separates ratio-of-sums from
mean-of-ratios. -/
theorem claim_C5_witness :
    (processAnalytics [wSpin1, wSpin2]).map
        (fun o => o.byType.map (fun t => (t.attendanceRate, t.avgBookingRate))) =
      some [(.str "66.7", .str "50.0")] :=
  (claim_C5 [wSpin1, wSpin2] (finalize (accOf [wSpin1, wSpin2]))
    (by decide)).2

/-! ## Claim C7 -/

/-- C7: `summary.uniqueParticipants` is the number of *distinct* truthy
user identifiers drawn from the bookings of all sessions combined (the
cardinality of the union of the per-session identifier sets, so an
identifier recurring across sessions counts once, and bookings without
a user identifier contribute nothing); in particular the two-session
input whose bookings carry ids {1,2} and {2,3} reports 3. -/
theorem claim_C7 (l : List Workout) (out : AnalyticsReport)
    (h : processAnalytics l = some out) :
    out.summary.uniqueParticipants =
      ((l.map sessionUserIds).flatten).toFinset.card ∧
    (processAnalytics [wBookA, wBookB]).map
        (fun o => o.summary.uniqueParticipants) = some 3 := by
  refine ⟨?_, by decide⟩
  obtain ⟨-, rfl⟩ := processAnalytics_some l out h
  show (accOf l).allUniqueUsers.length = _
  have hset : (accOf l).allUniqueUsers.toFinset =
      ((l.map sessionUserIds).flatten).toFinset := by
    apply Finset.ext
    intro x
    rw [List.mem_toFinset, List.mem_toFinset, accOf_allUsers_mem,
      List.mem_flatten]
    constructor
    · rintro ⟨w, hw, hx⟩
      exact ⟨sessionUserIds w, List.mem_map_of_mem sessionUserIds hw, hx⟩
    · rintro ⟨s, hs, hx⟩
      rcases List.mem_map.mp hs with ⟨w, hw, rfl⟩
      exact ⟨w, hw, hx⟩
  rw [← hset, List.toFinset_card_of_nodup (accOf_allUsers_nodup l)]

/-- C7 witness: duplicate ids across sessions are counted once. -/
theorem claim_C7_witness :
    (processAnalytics [wBookA, wBookB]).map
        (fun o => o.summary.uniqueParticipants) = some 3 :=
  (claim_C7 [wBookA, wBookB] (finalize (accOf [wBookA, wBookB]))
    (by decide)).2

/-! ## Claim C8 -/

/-- C8: when a session with staff list `ss` (distinct display names) is
folded into the instructor dictionary, every staff member's bucket gets
`classes` incremented by 1 and `totalBooked`/`totalCapacity` incremented
by the session's full booked count and capacity (`insInc`), not split
across the instructors; a bucket that does not exist yet starts from the
zero record for that staff member.  The two-instructor session with
`bookedCount = 6` yields two buckets, each with the full 6 and 10. -/
theorem claim_C8 (w : Workout) (ss : List Staff) (m : List (String × InsAcc))
    (hss : w.staffs = some ss) (hnodup : (ss.map staffNameOf).Nodup) :
    (∀ s ∈ ss,
      dget (updateByInstructor w m) (staffNameOf s) =
        some { name := ((dget m (staffNameOf s)).getD
                  (insInit (staffNameOf s) s)).name
               classes := ((dget m (staffNameOf s)).getD
                  (insInit (staffNameOf s) s)).classes + 1
               totalBooked := ((dget m (staffNameOf s)).getD
                  (insInit (staffNameOf s) s)).totalBooked + bookedOf w
               totalCapacity := ((dget m (staffNameOf s)).getD
                  (insInit (staffNameOf s) s)).totalCapacity + spaceOf w
               imagekey := ((dget m (staffNameOf s)).getD
                  (insInit (staffNameOf s) s)).imagekey }) ∧
    (processAnalytics [wTwoStaff]).map
        (fun o => o.byInstructor.map
          (fun i => (i.name, i.classes, i.totalBooked, i.totalCapacity))) =
      some [("Anna Ali", 1, 6, 10), ("Bjorn Berg", 1, 6, 10)] := by
  refine ⟨?_, by decide⟩
  intro s hs
  have hlen : ss.length > 0 := List.length_pos.mpr (List.ne_nil_of_mem hs)
  rw [updateByInstructor_eq w ss m hss, if_pos hlen]
  rw [dget_staffFold_mem (bookedOf w) (spaceOf w) ss m s hs hnodup]
  rfl

/-- C8 witness: the two-staff session applied to the empty dictionary. -/
theorem claim_C8_witness :
    wTwoStaff.staffs = some [staffAnna, staffBjorn] ∧
    ([staffAnna, staffBjorn].map staffNameOf).Nodup ∧
    dget (updateByInstructor wTwoStaff []) (staffNameOf staffAnna) =
      some { name := "Anna Ali", classes := 1, totalBooked := 6
             totalCapacity := 10, imagekey := none } := by
  refine ⟨by decide, by decide, ?_⟩
  have h := (claim_C8 wTwoStaff [staffAnna, staffBjorn] [] (by decide)
    (by decide)).1 staffAnna (by decide)
  rw [h]
  decide

/-! ## Claim C10 -/

/-- C10: a session whose `staffs` list is absent or empty contributes to
no `byInstructor` bucket at all (the fan-out leaves the dictionary
unchanged; no `'Unknown'` bucket is created for instructor-less
sessions); consequently `byInstructor` is the empty list even for the
non-empty input `[wNoStaff]` (where `totalClasses = 1` exceeds the
`classes` sum `0`), while for `[wTwoStaff]` the `classes` sum `2`
exceeds `totalClasses = 1` — the two quantities can differ in either
direction. -/
theorem claim_C10 (w : Workout) (m : List (String × InsAcc))
    (h : w.staffs = none ∨ w.staffs = some []) :
    updateByInstructor w m = m ∧
    (processAnalytics [wNoStaff]).map
        (fun o => (o.byInstructor.length,
          (o.byInstructor.map InsStat.classes).sum,
          o.summary.totalClasses)) = some (0, 0, 1) ∧
    (processAnalytics [wTwoStaff]).map
        (fun o => ((o.byInstructor.map InsStat.classes).sum,
          o.summary.totalClasses)) = some (2, 1) := by
  refine ⟨?_, by decide, by decide⟩
  rcases h with h | h <;>
    · unfold updateByInstructor
      rw [h]
      try rfl

/-- C10 witness: the staff-less session leaves the dictionary alone. -/
theorem claim_C10_witness :
    updateByInstructor wNoStaff
        [("Anna Ali", { name := "Anna Ali", classes := 3, totalBooked := 9
                        totalCapacity := 30, imagekey := none })] =
      [("Anna Ali", { name := "Anna Ali", classes := 3, totalBooked := 9
                      totalCapacity := 30, imagekey := none })] :=
  (claim_C10 wNoStaff _ (Or.inl rfl)).1

/-! ## Claim C9 -/

/-- C9: `dailyTrend` has exactly one entry per distinct date string
present in the input (the date portion of each session's `startTime`),
emitted strictly ascending in the JS lexicographic string order, and
each entry carries that date's session count, booked and capacity
totals, and attendance rate. -/
theorem claim_C9 (l : List Workout) (out : AnalyticsReport)
    (h : processAnalytics l = some out) :
    (out.dailyTrend.map TrendStat.date).Pairwise
      (fun a b => strLtJS a b = true) ∧
    (∀ ds : String,
      ds ∈ out.dailyTrend.map TrendStat.date ↔ ∃ w ∈ l, dateStrOf w = ds) ∧
    (∀ e ∈ out.dailyTrend,
      e.classes = (l.filter (fun w => decide (dateStrOf w = e.date))).length ∧
      e.totalBooked =
        ((l.filter (fun w => decide (dateStrOf w = e.date))).map bookedOf).sum ∧
      e.totalCapacity =
        ((l.filter (fun w => decide (dateStrOf w = e.date))).map spaceOf).sum ∧
      e.attendanceRate = jsRatePct e.totalBooked e.totalCapacity) := by
  obtain ⟨-, rfl⟩ := processAnalytics_some l out h
  have hmapdate : (finalize (accOf l)).dailyTrend.map TrendStat.date =
      stableSort strLeJS ((accOf l).byDate.map Prod.fst) := by
    simp only [finalize, List.map_map]
    exact (List.map_congr_left (fun d _ => rfl)).trans (List.map_id _)
  refine ⟨?_, ?_, ?_⟩
  · rw [hmapdate]
    have hsorted := stableSort_pairwise strLeJS strLeJS_total strLeJS_trans
      ((accOf l).byDate.map Prod.fst)
    have hnodup : (stableSort strLeJS ((accOf l).byDate.map Prod.fst)).Nodup :=
      ((stableSort_perm strLeJS _).nodup_iff).mpr (accOf_byDate_keys_nodup l)
    exact (hsorted.and hnodup).imp (fun hab => strLeJS_ne_lt _ _ hab.1 hab.2)
  · intro ds
    rw [hmapdate, mem_stableSort, accOf_byDate_keys_mem]
  · intro e he
    simp only [finalize] at he
    rcases List.mem_map.mp he with ⟨dk, hdk, rfl⟩
    have hchar := accOf_byDate_getD l dk
    refine ⟨?_, ?_, ?_, rfl⟩
    · show ((dget (accOf l).byDate dk).getD ⟨0, 0, 0⟩).classes = _
      rw [hchar]
      rfl
    · show ((dget (accOf l).byDate dk).getD ⟨0, 0, 0⟩).totalBooked = _
      rw [hchar]
      rfl
    · show ((dget (accOf l).byDate dk).getD ⟨0, 0, 0⟩).totalCapacity = _
      rw [hchar]
      rfl

/-- C9 witness: reversed two-date input still sorts ascending. -/
theorem claim_C9_witness :
    ("2024-01-15" ∈
        (finalize (accOf [wSpin2, wSpin1])).dailyTrend.map TrendStat.date ↔
      ∃ w ∈ [wSpin2, wSpin1], dateStrOf w = "2024-01-15") ∧
    processAnalytics [wSpin2, wSpin1] =
      some (finalize (accOf [wSpin2, wSpin1])) ∧
    (finalize (accOf [wSpin2, wSpin1])).dailyTrend.map TrendStat.date =
      ["2024-01-15", "2024-01-16"] :=
  ⟨(claim_C9 [wSpin2, wSpin1] (finalize (accOf [wSpin2, wSpin1]))
      (by decide)).2.1 "2024-01-15",
   by decide, by decide⟩

/-! ## Claim C4 -/

/-- C4: every report has exactly 7 `byDay` entries in fixed
Sunday..Saturday order and exactly 18 `byHour` entries for hours 5..22;
on the empty input additionally `totalClasses = 0`, every rate is the
literal `0`, `byType`/`byInstructor`/`dailyTrend` are empty, and the
`byDay`/`byHour` entries are all zero. -/
theorem claim_C4 (l : List Workout) (out : AnalyticsReport)
    (h : processAnalytics l = some out) :
    out.byDay.length = 7 ∧
    out.byDay.map DayStat.day = dayNames ∧
    out.byDay.map DayStat.dayIndex = List.range 7 ∧
    out.byHour.length = 18 ∧
    out.byHour.map HourStat.hour = List.range' 5 18 ∧
    (l = [] →
      out.summary.totalClasses = 0 ∧
      out.summary.overallAttendanceRate = .num jsNumZero ∧
      out.summary.avgPerClass = .num jsNumZero ∧
      out.summary.fullyBookedRate = .num jsNumZero ∧
      out.summary.emptyRate = .num jsNumZero ∧
      out.byType = [] ∧ out.byInstructor = [] ∧ out.dailyTrend = [] ∧
      (∀ d ∈ out.byDay, d.classes = 0 ∧ d.avgAttendance = .num jsNumZero ∧
        d.attendanceRate = .num jsNumZero) ∧
      (∀ hs ∈ out.byHour, hs.classes = 0 ∧ hs.avgAttendance = .num jsNumZero ∧
        hs.attendanceRate = .num jsNumZero)) := by
  obtain ⟨-, rfl⟩ := processAnalytics_some l out h
  refine ⟨rfl, rfl, rfl, rfl, rfl, ?_⟩
  rintro rfl
  decide

/-- C4 witness: the single-session Yoga input. -/
theorem claim_C4_witness :
    processAnalytics [wYoga] = some (finalize (accOf [wYoga])) ∧
    (finalize (accOf [wYoga])).byDay.length = 7 ∧
    (finalize (accOf [wYoga])).byHour.length = 18 := by
  have hp : processAnalytics [wYoga] = some (finalize (accOf [wYoga])) := by
    decide
  have h := claim_C4 [wYoga] (finalize (accOf [wYoga])) hp
  exact ⟨hp, h.1, h.2.2.2.1⟩

/-- C2 witness: the Spin pair (capacities 10 and 5, booked 10 and 0). -/
theorem claim_C2_witness :
    processAnalytics [wSpin1, wSpin2] =
      some (finalize (accOf [wSpin1, wSpin2])) ∧
    (finalize (accOf [wSpin1, wSpin2])).summary.totalCapacity = 15 ∧
    (finalize (accOf [wSpin1, wSpin2])).summary.fullyBookedClasses = 1 ∧
    (finalize (accOf [wSpin1, wSpin2])).summary.emptyClasses = 1 := by
  have hp : processAnalytics [wSpin1, wSpin2] =
      some (finalize (accOf [wSpin1, wSpin2])) := by decide
  have h := claim_C2 [wSpin1, wSpin2] (finalize (accOf [wSpin1, wSpin2])) hp
  exact ⟨hp, by rw [h.1]; decide, by rw [h.2.2.2.1]; decide,
    by rw [h.2.2.2.2]; decide⟩

/-! ## Claim C6: permutation invariance -/

theorem perm_of_nodup_mem {α : Type} {l1 l2 : List α} (h1 : l1.Nodup)
    (h2 : l2.Nodup) (hm : ∀ x, x ∈ l1 ↔ x ∈ l2) : List.Perm l1 l2 :=
  (List.perm_ext_iff_of_nodup h1 h2).mpr hm

theorem length_eq_of_nodup_mem {α : Type} {l1 l2 : List α} (h1 : l1.Nodup)
    (h2 : l2.Nodup) (hm : ∀ x, x ∈ l1 ↔ x ∈ l2) : l1.length = l2.length :=
  (perm_of_nodup_mem h1 h2 hm).length_eq

theorem countAggOf_perm (l l2 : List Workout) (hp : List.Perm l l2)
    (p : Workout → Bool) : countAggOf l p = countAggOf l2 p := by
  unfold countAggOf
  rw [(hp.filter p).length_eq, ((hp.filter p).map bookedOf).sum_eq,
    ((hp.filter p).map spaceOf).sum_eq]

theorem insCoreOf_perm (l l2 : List Workout) (hp : List.Perm l l2)
    (n : String) : insCoreOf l n = insCoreOf l2 n := by
  unfold insCoreOf
  rw [(hp.map (fun w => (staffNamesOf w).count n)).sum_eq,
    (hp.map (fun w => (staffNamesOf w).count n * bookedOf w)).sum_eq,
    (hp.map (fun w => (staffNamesOf w).count n * spaceOf w)).sum_eq]

theorem userSetOf_length_perm (l l2 : List Workout) (hp : List.Perm l l2)
    (k : String) : (userSetOf l k).length = (userSetOf l2 k).length :=
  length_eq_of_nodup_mem (nodup_userSetOf l k) (nodup_userSetOf l2 k)
    (fun x => by
      rw [mem_userSetOf, mem_userSetOf]
      constructor
      · rintro ⟨w, hw, hty, hx⟩
        exact ⟨w, hp.mem_iff.mp hw, hty, hx⟩
      · rintro ⟨w, hw, hty, hx⟩
        exact ⟨w, hp.mem_iff.mpr hw, hty, hx⟩)

theorem rateLeT_total (a b : TypeStat) :
    rateLeT a b = true ∨ rateLeT b a = true := by
  unfold rateLeT
  rcases Nat.le_total (rateKey b.attendanceRate)
      (rateKey a.attendanceRate) with h | h
  · exact Or.inl (decide_eq_true h)
  · exact Or.inr (decide_eq_true h)

theorem rateLeT_trans (a b c : TypeStat) (h1 : rateLeT a b = true)
    (h2 : rateLeT b c = true) : rateLeT a c = true := by
  unfold rateLeT at h1 h2 ⊢
  exact decide_eq_true
    (Nat.le_trans (of_decide_eq_true h2) (of_decide_eq_true h1))

theorem rateLeI_total (a b : InsStat) :
    rateLeI a b = true ∨ rateLeI b a = true := by
  unfold rateLeI
  rcases Nat.le_total (rateKey b.attendanceRate)
      (rateKey a.attendanceRate) with h | h
  · exact Or.inl (decide_eq_true h)
  · exact Or.inr (decide_eq_true h)

theorem rateLeI_trans (a b c : InsStat) (h1 : rateLeI a b = true)
    (h2 : rateLeI b c = true) : rateLeI a c = true := by
  unfold rateLeI at h1 h2 ⊢
  exact decide_eq_true
    (Nat.le_trans (of_decide_eq_true h2) (of_decide_eq_true h1))

theorem eq_of_perm_sorted_keys {α : Type} (f : α → Nat) (l1 l2 : List α)
    (hperm : List.Perm (l1.map f) (l2.map f))
    (h1 : l1.Pairwise (fun a b => f b ≤ f a))
    (h2 : l2.Pairwise (fun a b => f b ≤ f a)) :
    l1.map f = l2.map f := by
  haveI : IsAntisymm Nat (fun a b => b ≤ a) :=
    ⟨fun a b x y => Nat.le_antisymm y x⟩
  have hs1 : (l1.map f).Sorted (fun a b : Nat => b ≤ a) :=
    List.Pairwise.map f (fun a b h => h) h1
  have hs2 : (l2.map f).Sorted (fun a b : Nat => b ≤ a) :=
    List.Pairwise.map f (fun a b h => h) h2
  exact List.eq_of_perm_of_sorted hperm hs1 hs2

theorem canonInsStat_mkInsStat (v : InsAcc) :
    canonInsStat (mkInsStat v) =
      ⟨(insProj v).name, (insProj v).classes, (insProj v).totalBooked,
       (insProj v).totalCapacity,
       jsAvgOf (insProj v).totalBooked (insProj v).classes,
       jsRatePct (insProj v).totalBooked (insProj v).totalCapacity⟩ := rfl

theorem strLeJS_antisymm (a b : String) (h1 : strLeJS a b = true)
    (h2 : strLeJS b a = true) : a = b := by
  unfold strLeJS at h1 h2
  rw [Bool.not_eq_true'] at h1 h2
  rcases strLtChars_total a.data b.data with h | h | h
  · rw [h2] at h
    cases h
  · rw [h1] at h
    cases h
  · exact String.ext h

/-- C6, amended.  As stated the claim is false (see
`claim_C6_counterexample`): the `...t` spread copies the per-type
`bookings` array — a numeric output — into each `byType` entry, and its
internal order tracks input order even when no two entries are tied on
attendance rate.  What does hold, and is proved here: permuting the
input preserves `summary`, `byDay`, `byHour` and `dailyTrend` exactly,
and preserves `byType` and `byInstructor` up to (a) the relative order
of entries tied on attendance rate and (b) the internal order of each
`byType` entry's `bookings` array: the multisets of entries — with
`bookings` read as a multiset and the non-numeric first-occurrence
fields `color` / `imagekey` dropped — coincide, and the sorted
attendance-rate key sequences coincide position by position. -/
theorem claim_C6 (l l2 : List Workout) (hp : List.Perm l l2)
    (out out2 : AnalyticsReport) (h : processAnalytics l = some out)
    (h2 : processAnalytics l2 = some out2) :
    out.summary = out2.summary ∧ out.byDay = out2.byDay ∧
    out.byHour = out2.byHour ∧ out.dailyTrend = out2.dailyTrend ∧
    (↑(out.byType.map canonTypeStat) : Multiset TypeStatCanon) =
      ↑(out2.byType.map canonTypeStat) ∧
    out.byType.map (fun t => rateKey t.attendanceRate) =
      out2.byType.map (fun t => rateKey t.attendanceRate) ∧
    (↑(out.byInstructor.map canonInsStat) : Multiset InsStatCanon) =
      ↑(out2.byInstructor.map canonInsStat) ∧
    out.byInstructor.map (fun i => rateKey i.attendanceRate) =
      out2.byInstructor.map (fun i => rateKey i.attendanceRate) := by
  obtain ⟨-, rfl⟩ := processAnalytics_some l out h
  obtain ⟨-, rfl⟩ := processAnalytics_some l2 out2 h2
  have htc : (accOf l).totalClasses = (accOf l2).totalClasses := by
    rw [accOf_totalClasses, accOf_totalClasses, hp.length_eq]
  have htb : (accOf l).totalBooked = (accOf l2).totalBooked := by
    rw [accOf_totalBooked, accOf_totalBooked, (hp.map bookedOf).sum_eq]
  have hcap : (accOf l).totalCapacity = (accOf l2).totalCapacity := by
    rw [accOf_totalCapacity, accOf_totalCapacity, (hp.map spaceOf).sum_eq]
  have hfull : (accOf l).fullyBookedClasses =
      (accOf l2).fullyBookedClasses := by
    rw [accOf_fullyBooked, accOf_fullyBooked,
      hp.countP_eq (fun w => decide (spaceOf w > 0 ∧ bookedOf w ≥ spaceOf w))]
  have hempty : (accOf l).emptyClasses = (accOf l2).emptyClasses := by
    rw [accOf_emptyClasses, accOf_emptyClasses,
      hp.countP_eq (fun w => decide (bookedOf w = 0))]
  have husers : (accOf l).allUniqueUsers.length =
      (accOf l2).allUniqueUsers.length :=
    length_eq_of_nodup_mem (accOf_allUsers_nodup l) (accOf_allUsers_nodup l2)
      (fun x => by
        rw [accOf_allUsers_mem, accOf_allUsers_mem]
        constructor
        · rintro ⟨w, hw, hx⟩
          exact ⟨w, hp.mem_iff.mp hw, hx⟩
        · rintro ⟨w, hw, hx⟩
          exact ⟨w, hp.mem_iff.mpr hw, hx⟩)
  have hsummary : (finalize (accOf l)).summary =
      (finalize (accOf l2)).summary := by
    simp only [finalize, htc, htb, hcap, hfull, hempty, husers]
  have hbyday : (finalize (accOf l)).byDay = (finalize (accOf l2)).byDay := by
    simp only [finalize]
    apply List.map_congr_left
    intro p hpmem
    have e1 := accOf_byDayOfWeek_getD l p.1
    have e2 := accOf_byDayOfWeek_getD l2 p.1
    have hfp := (hp.filter (fun w => decide (dowOf w = p.1))).map dayEntryOf
    have hlen := hfp.length_eq
    have hbsum := (hfp.map (fun d : DayEntry => d.booked)).sum_eq
    have hcsum := (hfp.map (fun d : DayEntry => d.capacity)).sum_eq
    simp only [mkDayStat, e1, e2, foldl_add_proj, Nat.zero_add, hlen, hbsum,
      hcsum]
  have hbyhour : (finalize (accOf l)).byHour =
      (finalize (accOf l2)).byHour := by
    simp only [finalize]
    apply List.map_congr_left
    intro hh hhmem
    simp only [mkHourStat, accOf_byHour_getD,
      countAggOf_perm l l2 hp (fun w => decide (hourOf w = hh))]
  have hkeysD : List.Perm ((accOf l).byDate.map Prod.fst)
      ((accOf l2).byDate.map Prod.fst) :=
    perm_of_nodup_mem (accOf_byDate_keys_nodup l) (accOf_byDate_keys_nodup l2)
      (fun ds => by
        rw [accOf_byDate_keys_mem, accOf_byDate_keys_mem]
        constructor
        · rintro ⟨w, hw, hds⟩
          exact ⟨w, hp.mem_iff.mp hw, hds⟩
        · rintro ⟨w, hw, hds⟩
          exact ⟨w, hp.mem_iff.mpr hw, hds⟩)
  have hsorted : stableSort strLeJS ((accOf l).byDate.map Prod.fst) =
      stableSort strLeJS ((accOf l2).byDate.map Prod.fst) := by
    haveI : IsAntisymm String (fun a b => strLeJS a b = true) :=
      ⟨fun a b x y => strLeJS_antisymm a b x y⟩
    have hpm : List.Perm
        (stableSort strLeJS ((accOf l).byDate.map Prod.fst))
        (stableSort strLeJS ((accOf l2).byDate.map Prod.fst)) :=
      ((stableSort_perm _ _).trans hkeysD).trans (stableSort_perm _ _).symm
    have hs1 : (stableSort strLeJS ((accOf l).byDate.map Prod.fst)).Sorted
        (fun a b => strLeJS a b = true) :=
      stableSort_pairwise strLeJS strLeJS_total strLeJS_trans _
    have hs2 : (stableSort strLeJS ((accOf l2).byDate.map Prod.fst)).Sorted
        (fun a b => strLeJS a b = true) :=
      stableSort_pairwise strLeJS strLeJS_total strLeJS_trans _
    exact List.eq_of_perm_of_sorted hpm hs1 hs2
  have htrend : (finalize (accOf l)).dailyTrend =
      (finalize (accOf l2)).dailyTrend := by
    simp only [finalize]
    rw [hsorted]
    apply List.map_congr_left
    intro d hd
    simp only [mkTrendStat, accOf_byDate_getD,
      countAggOf_perm l l2 hp (fun w => decide (dateStrOf w = d))]
  have hkT : List.Perm ((accOf l).byType.map Prod.fst)
      ((accOf l2).byType.map Prod.fst) :=
    perm_of_nodup_mem (accOf_byType_keys_nodup l) (accOf_byType_keys_nodup l2)
      (fun k => by
        rw [accOf_byType_keys_mem, accOf_byType_keys_mem]
        constructor
        · rintro ⟨w, hw, hk⟩
          exact ⟨w, hp.mem_iff.mp hw, hk⟩
        · rintro ⟨w, hw, hk⟩
          exact ⟨w, hp.mem_iff.mpr hw, hk⟩)
  have hgT : ∀ k ∈ (accOf l).byType.map Prod.fst,
      canonTypeStat (mkTypeStat (accOf l).uniqueUsersByType
          ((dget (accOf l).byType k).getD typeAccDefault)) =
        canonTypeStat (mkTypeStat (accOf l2).uniqueUsersByType
          ((dget (accOf l2).byType k).getD typeAccDefault)) := by
    intro k hk
    have hex1 : ∃ w ∈ l, typeNameOf w = k := (accOf_byType_keys_mem l k).mp hk
    have hex2 : ∃ w ∈ l2, typeNameOf w = k := by
      rcases hex1 with ⟨w, hw, hke⟩
      exact ⟨w, hp.mem_iff.mp hw, hke⟩
    rw [accOf_byType_dget, if_pos hex1, accOf_byType_dget l2, if_pos hex2,
      Option.getD_some, Option.getD_some]
    have hfp := hp.filter (fun w => decide (typeNameOf w = k))
    have hlen := hfp.length_eq
    have hbsum := (hfp.map bookedOf).sum_eq
    have hcsum := (hfp.map spaceOf).sum_eq
    have hrperm := hfp.map sessionRatio
    have hmean := jsMeanOf_perm _ _ hrperm (by
      intro v hv
      rcases List.mem_map.mp hv with ⟨w, hw, rfl⟩
      exact sessionRatio_dpos w)
    have hmset : (↑((l.filter (fun w => decide (typeNameOf w = k))).map
          sessionRatio) : Multiset JsNum) =
        ↑((l2.filter (fun w => decide (typeNameOf w = k))).map sessionRatio) :=
      Multiset.coe_eq_coe.mpr hrperm
    have huubt1 : dget (accOf l).uniqueUsersByType k =
        some (userSetOf l k) := by
      rw [accOf_uubt_dget, if_pos hex1]
    have huubt2 : dget (accOf l2).uniqueUsersByType k =
        some (userSetOf l2 k) := by
      rw [accOf_uubt_dget, if_pos hex2]
    have huu := userSetOf_length_perm l l2 hp k
    simp only [canonTypeStat, mkTypeStat, typeAggOf, huubt1, huubt2,
      Option.map_some', Option.getD_some, TypeStatCanon.mk.injEq]
    refine ⟨trivial, hlen, hbsum, hcsum, hmset, ?_, ?_, hmean, huu⟩
    · rw [hbsum, hlen]
    · rw [hbsum, hcsum]
  have hvtT : List.Perm ((finalize (accOf l)).byType.map canonTypeStat)
      ((finalize (accOf l2)).byType.map canonTypeStat) := by
    have hmid : List.Perm
        (((accOf l).byType.map Prod.fst).map (fun k =>
          canonTypeStat (mkTypeStat (accOf l).uniqueUsersByType
            ((dget (accOf l).byType k).getD typeAccDefault))))
        (((accOf l2).byType.map Prod.fst).map (fun k =>
          canonTypeStat (mkTypeStat (accOf l2).uniqueUsersByType
            ((dget (accOf l2).byType k).getD typeAccDefault)))) :=
      (List.Perm.of_eq
          (List.map_congr_left (fun k hk => hgT k hk))).trans
        (hkT.map _)
    simp only [finalize]
    refine ((stableSort_perm rateLeT _).map canonTypeStat).trans
      (List.Perm.trans ?_
        (((stableSort_perm rateLeT _).map canonTypeStat).symm))
    rw [values_eq_map_keys ((accOf l).byType) typeAccDefault
        (accOf_byType_keys_nodup l),
      values_eq_map_keys ((accOf l2).byType) typeAccDefault
        (accOf_byType_keys_nodup l2)]
    simpa only [List.map_map, Function.comp_def] using hmid
  have hkeyT : (finalize (accOf l)).byType.map
        (fun t => rateKey t.attendanceRate) =
      (finalize (accOf l2)).byType.map
        (fun t => rateKey t.attendanceRate) := by
    have hpk : List.Perm
        ((finalize (accOf l)).byType.map (fun t => rateKey t.attendanceRate))
        ((finalize (accOf l2)).byType.map
          (fun t => rateKey t.attendanceRate)) := by
      have hmapped :=
        hvtT.map (fun tc : TypeStatCanon => rateKey tc.attendanceRate)
      simpa only [List.map_map, Function.comp_def, canonTypeStat]
        using hmapped
    apply eq_of_perm_sorted_keys (fun t : TypeStat => rateKey t.attendanceRate)
      _ _ hpk
    · exact List.Pairwise.imp (fun hab => of_decide_eq_true hab)
        (by
          have hsp := stableSort_pairwise rateLeT rateLeT_total rateLeT_trans
            (((accOf l).byType.map Prod.snd).map
              (mkTypeStat (accOf l).uniqueUsersByType))
          simpa only [finalize] using hsp)
    · exact List.Pairwise.imp (fun hab => of_decide_eq_true hab)
        (by
          have hsp := stableSort_pairwise rateLeT rateLeT_total rateLeT_trans
            (((accOf l2).byType.map Prod.snd).map
              (mkTypeStat (accOf l2).uniqueUsersByType))
          simpa only [finalize] using hsp)
  have hkI : List.Perm ((accOf l).byInstructor.map Prod.fst)
      ((accOf l2).byInstructor.map Prod.fst) :=
    perm_of_nodup_mem (accOf_byInstructor_keys_nodup l)
      (accOf_byInstructor_keys_nodup l2)
      (fun n => by
        rw [accOf_byInstructor_keys_mem, accOf_byInstructor_keys_mem]
        constructor
        · rintro ⟨w, hw, hn⟩
          exact ⟨w, hp.mem_iff.mp hw, hn⟩
        · rintro ⟨w, hw, hn⟩
          exact ⟨w, hp.mem_iff.mpr hw, hn⟩)
  have hgI : ∀ n ∈ (accOf l).byInstructor.map Prod.fst,
      canonInsStat (mkInsStat
          ((dget (accOf l).byInstructor n).getD insAccDefault)) =
        canonInsStat (mkInsStat
          ((dget (accOf l2).byInstructor n).getD insAccDefault)) := by
    intro n hn
    have hex1 : ∃ w ∈ l, n ∈ staffNamesOf w :=
      (accOf_byInstructor_keys_mem l n).mp hn
    have hex2 : ∃ w ∈ l2, n ∈ staffNamesOf w := by
      rcases hex1 with ⟨w, hw, hns⟩
      exact ⟨w, hp.mem_iff.mp hw, hns⟩
    obtain ⟨v1, hv1⟩ : ∃ v, dget (accOf l).byInstructor n = some v := by
      have hproj := accOf_byInstructor_proj l n
      rw [if_pos hex1] at hproj
      cases hd : dget (accOf l).byInstructor n with
      | none =>
        rw [hd] at hproj
        cases hproj
      | some v => exact ⟨v, rfl⟩
    obtain ⟨v2, hv2⟩ : ∃ v, dget (accOf l2).byInstructor n = some v := by
      have hproj := accOf_byInstructor_proj l2 n
      rw [if_pos hex2] at hproj
      cases hd : dget (accOf l2).byInstructor n with
      | none =>
        rw [hd] at hproj
        cases hproj
      | some v => exact ⟨v, rfl⟩
    have hpr1 : insProj v1 = insCoreOf l n := by
      have hproj := accOf_byInstructor_proj l n
      rw [if_pos hex1, hv1, Option.map_some'] at hproj
      exact Option.some.inj hproj
    have hpr2 : insProj v2 = insCoreOf l2 n := by
      have hproj := accOf_byInstructor_proj l2 n
      rw [if_pos hex2, hv2, Option.map_some'] at hproj
      exact Option.some.inj hproj
    rw [hv1, hv2, Option.getD_some, Option.getD_some,
      canonInsStat_mkInsStat, canonInsStat_mkInsStat, hpr1, hpr2,
      insCoreOf_perm l l2 hp n]
  have hvtI : List.Perm ((finalize (accOf l)).byInstructor.map canonInsStat)
      ((finalize (accOf l2)).byInstructor.map canonInsStat) := by
    have hmid : List.Perm
        (((accOf l).byInstructor.map Prod.fst).map (fun n =>
          canonInsStat (mkInsStat
            ((dget (accOf l).byInstructor n).getD insAccDefault))))
        (((accOf l2).byInstructor.map Prod.fst).map (fun n =>
          canonInsStat (mkInsStat
            ((dget (accOf l2).byInstructor n).getD insAccDefault)))) :=
      (List.Perm.of_eq
          (List.map_congr_left (fun n hn => hgI n hn))).trans
        (hkI.map _)
    simp only [finalize]
    refine ((stableSort_perm rateLeI _).map canonInsStat).trans
      (List.Perm.trans ?_
        (((stableSort_perm rateLeI _).map canonInsStat).symm))
    rw [values_eq_map_keys ((accOf l).byInstructor) insAccDefault
        (accOf_byInstructor_keys_nodup l),
      values_eq_map_keys ((accOf l2).byInstructor) insAccDefault
        (accOf_byInstructor_keys_nodup l2)]
    simpa only [List.map_map, Function.comp_def] using hmid
  have hkeyI : (finalize (accOf l)).byInstructor.map
        (fun i => rateKey i.attendanceRate) =
      (finalize (accOf l2)).byInstructor.map
        (fun i => rateKey i.attendanceRate) := by
    have hpk : List.Perm
        ((finalize (accOf l)).byInstructor.map
          (fun i => rateKey i.attendanceRate))
        ((finalize (accOf l2)).byInstructor.map
          (fun i => rateKey i.attendanceRate)) := by
      have hmapped :=
        hvtI.map (fun ic : InsStatCanon => rateKey ic.attendanceRate)
      simpa only [List.map_map, Function.comp_def, canonInsStat]
        using hmapped
    apply eq_of_perm_sorted_keys (fun i : InsStat => rateKey i.attendanceRate)
      _ _ hpk
    · exact List.Pairwise.imp (fun hab => of_decide_eq_true hab)
        (by
          have hsp := stableSort_pairwise rateLeI rateLeI_total rateLeI_trans
            (((accOf l).byInstructor.map Prod.snd).map mkInsStat)
          simpa only [finalize] using hsp)
    · exact List.Pairwise.imp (fun hab => of_decide_eq_true hab)
        (by
          have hsp := stableSort_pairwise rateLeI rateLeI_total rateLeI_trans
            (((accOf l2).byInstructor.map Prod.snd).map mkInsStat)
          simpa only [finalize] using hsp)
  exact ⟨hsummary, hbyday, hbyhour, htrend, Multiset.coe_eq_coe.mpr hvtT,
    hkeyT, Multiset.coe_eq_coe.mpr hvtI, hkeyI⟩

/-- C6 counterexample to the claim as stated: the two Spin sessions in
either order are permutations of one another and both reports have a
single `byType` entry — so no two entries are tied on attendance rate
and tie reordering cannot occur — yet the numeric `bookings` array
inside that entry differs: session rates 100 %, 0 % versus 0 %, 100 %.
Input order thus leaks into a numeric output beyond tie ordering. -/
theorem claim_C6_counterexample :
    List.Perm [wSpin1, wSpin2] [wSpin2, wSpin1] ∧
    (processAnalytics [wSpin1, wSpin2]).map
        (fun o => o.byType.map TypeStat.bookings) =
      some [[⟨100, 1⟩, ⟨0, 1⟩]] ∧
    (processAnalytics [wSpin2, wSpin1]).map
        (fun o => o.byType.map TypeStat.bookings) =
      some [[⟨0, 1⟩, ⟨100, 1⟩]] ∧
    (processAnalytics [wSpin1, wSpin2]).map (fun o => o.byType.length) =
      some 1 :=
  ⟨List.Perm.swap wSpin2 wSpin1 [], by decide, by decide, by decide⟩

/-- C6 witness: the amended invariance evaluated on the Spin pair and
its swap — the summaries and daily trends coincide. -/
theorem claim_C6_witness :
    (finalize (accOf [wSpin1, wSpin2])).summary =
      (finalize (accOf [wSpin2, wSpin1])).summary ∧
    (finalize (accOf [wSpin1, wSpin2])).dailyTrend =
      (finalize (accOf [wSpin2, wSpin1])).dailyTrend :=
  ⟨(claim_C6 [wSpin1, wSpin2] [wSpin2, wSpin1]
      (List.Perm.swap wSpin2 wSpin1 [])
      (finalize (accOf [wSpin1, wSpin2])) (finalize (accOf [wSpin2, wSpin1]))
      (by decide) (by decide)).1,
   (claim_C6 [wSpin1, wSpin2] [wSpin2, wSpin1]
      (List.Perm.swap wSpin2 wSpin1 [])
      (finalize (accOf [wSpin1, wSpin2])) (finalize (accOf [wSpin2, wSpin1]))
      (by decide) (by decide)).2.2.2.1⟩

end GTA
